import Mathlib

/-!
Verification of the chunking and extractive-summarization core of the
ai-research-assistant repository (src/app/core/chunking.py and
src/app/core/summarization.py), shallowly embedded in Lean 4.

Texts are modelled as `List Char`, Python ints as `Int`/`Nat`, floats as
exact rationals `ℚ` (the algorithms in scope only compare and linearly
combine scores, so exact rational arithmetic mirrors the control flow).
Fallible operations (`raise ValueError`) are modelled with `Option`.
-/

namespace SpecProof

/-- Python `\s` whitespace class restricted to ASCII, as used by `str.strip`,
`re.sub(r'\s+', ...)` and the `\s` in the sentence pattern. -/
def isPySpace (c : Char) : Bool :=
  c = ' ' || c = '\t' || c = '\n' || c = '\r' || c = '\x0b' || c = '\x0c'

/-- Python regex `\w` word character (ASCII range). -/
def isWordChar (c : Char) : Bool :=
  ('a' ≤ c && c ≤ 'z') || ('A' ≤ c && c ≤ 'Z') || ('0' ≤ c && c ≤ '9') || c = '_'

/-- ASCII uppercase letter, regex `[A-Z]`. -/
def isUpperAZ (c : Char) : Bool := 'A' ≤ c && c ≤ 'Z'

/-- ASCII lowercase letter, regex `[a-z]`. -/
def isLowerAZ (c : Char) : Bool := 'a' ≤ c && c ≤ 'z'

/-- Sentence-ending punctuation `.`, `?`, `!` of the chunking regexes. -/
def isPunct (c : Char) : Bool := c = '.' || c = '?' || c = '!'

/-- Python `str.lstrip()` on the whitespace class. -/
def stripL (l : List Char) : List Char := l.dropWhile isPySpace

/-- Python `str.rstrip()` on the whitespace class. -/
def stripR (l : List Char) : List Char := (l.reverse.dropWhile isPySpace).reverse

/-- Python `str.strip()`. -/
def strip (l : List Char) : List Char := stripR (stripL l)

/-- Python `' '.join(pieces)`. -/
def joinSp : List (List Char) → List Char
  | [] => []
  | [s] => s
  | s :: s2 :: rest => s ++ ' ' :: joinSp (s2 :: rest)

/-- Helper for `collapseWs`: the boolean records whether the previously
consumed character was whitespace (so further whitespace is dropped). -/
def collapseAux : Bool → List Char → List Char
  | _, [] => []
  | prevSpace, c :: rest =>
    if isPySpace c then
      if prevSpace then collapseAux true rest
      else ' ' :: collapseAux true rest
    else c :: collapseAux false rest

/-- `re.sub(r'\s+', ' ', text)`: collapse each whitespace run to one space. -/
def collapseWs (l : List Char) : List Char := collapseAux false l

/-- `re.sub(r'([.!?])([A-Z])', r'\1 \2', text)`: insert a space between
sentence-ending punctuation and an immediately following capital letter.
The scan consumes both matched characters, as `re.sub` does. -/
def insertSp : List Char → List Char
  | [] => []
  | [c] => [c]
  | c1 :: c2 :: rest =>
    if isPunct c1 && isUpperAZ c2 then c1 :: ' ' :: c2 :: insertSp rest
    else c1 :: insertSp (c2 :: rest)

/-- `SemanticChunker._normalize_text`: collapse whitespace, ensure a space
after sentence endings, strip. -/
def normalize_text (l : List Char) : List Char := strip (insertSp (collapseWs l))

/-- One match attempt of the sentence pattern
`(?<!\w\.\w.)(?<![A-Z][a-z]\.)(?<=\.|\?|\!)\s` at a whitespace character `c`;
`rprev` is the list of characters before `c`, most recent first (the
lookbehind context). -/
def isBoundary (rprev : List Char) (c : Char) : Bool :=
  isPySpace c &&
  (match rprev with
   | p1 :: _ => isPunct p1
   | [] => false) &&
  !(match rprev with
    | p1 :: p2 :: p3 :: _ => isUpperAZ p3 && isLowerAZ p2 && p1 = '.'
    | _ => false) &&
  !(match rprev with
    | _ :: p2 :: p3 :: p4 :: _ => isWordChar p4 && p3 = '.' && isWordChar p2
    | _ => false)

/-- `re.split` on the sentence pattern: scan left to right, cutting at each
matching whitespace character (the matched character is dropped).  `rprev` is
the reversed already-consumed text, `rcur` the reversed current piece. -/
def splitAux (rprev rcur : List Char) : List Char → List (List Char)
  | [] => [rcur.reverse]
  | c :: rest =>
    if isBoundary rprev c then rcur.reverse :: splitAux (c :: rprev) [] rest
    else splitAux (c :: rprev) (c :: rcur) rest

/-- `self.sentence_pattern.split(text)`. -/
def sentSplit (l : List Char) : List (List Char) := splitAux [] [] l

/-- `[s.strip() for s in pieces if s.strip()]` (shared by
`SemanticChunker.chunk_text` and `ExtractiveSummarizer._extract_sentences`). -/
def stripNonempty (pieces : List (List Char)) : List (List Char) :=
  pieces.filterMap fun s => if (strip s).isEmpty then none else some (strip s)

/-- The sentence list of `SemanticChunker.chunk_text` for normalized text
`t'`: split, strip, drop empties, and fall back to the whole text when no
sentence survives. -/
def sentencesOf (t' : List Char) : List (List Char) :=
  if (stripNonempty (sentSplit t')).isEmpty then [t'] else stripNonempty (sentSplit t')

/-- The `DocumentChunk` fields produced by the chunkers (pydantic model in
`app/models/schemas.py`); the generated `chunk_id` UUID is omitted as pure
external randomness. -/
structure DocumentChunk where
  document_id : List Char
  chunk_index : Nat
  text : List Char
  start_char : Int
  end_char : Int
deriving DecidableEq

instance : Inhabited DocumentChunk := ⟨⟨[], 0, [], 0, 0⟩⟩

/-- `SemanticChunker._get_overlap_text` inner loop: walk the reversed
sentence list, keeping sentences while `overlap_length + len(s) + 1` stays
within `overlap`; `break` discards the rest. Result is in pick order
(reverse document order). -/
def pickRev (overlap : Nat) (acc : Nat) : List (List Char) → List (List Char)
  | [] => []
  | s :: rest =>
    if acc + (s.length + 1) > overlap then []
    else s :: pickRev overlap (acc + (s.length + 1)) rest

/-- `SemanticChunker._get_overlap_text`: last sentences fitting in the
overlap window, joined with spaces. -/
def get_overlap_text (overlap : Nat) (sentences : List (List Char)) : List Char :=
  joinSp (pickRev overlap 0 sentences.reverse).reverse

/-- Python `str.split('. ')`: split on the literal two-character separator,
left to right. -/
def splitDotAux (rcur : List Char) : List Char → List (List Char)
  | [] => [rcur.reverse]
  | [c] => [(c :: rcur).reverse]
  | c :: c2 :: rest2 =>
    if c = '.' && c2 = ' ' then rcur.reverse :: splitDotAux [] rest2
    else splitDotAux (c :: rcur) (c2 :: rest2)

/-- `[s for s in overlap_text.split('. ') if s.strip()]` — the overlap-carry
re-split of `SemanticChunker.chunk_text` (pieces are kept verbatim, only
filtered). -/
def resplitFilter (overlapText : List Char) : List (List Char) :=
  (splitDotAux [] overlapText).filter fun s => !(strip s).isEmpty

/-- The accumulation loop of `SemanticChunker.chunk_text` over the sentence
list: state is the pending sentence buffer `current`, its tracked length
`curLen`, the next `chunk_index` `idx` and the running `start_char`. -/
def chunkLoop (cs ov : Nat) (docId : List Char) :
    List (List Char) → List (List Char) → Nat → Nat → Int → List DocumentChunk
  | [], current, _, idx, start =>
    if current.isEmpty then []
    else [⟨docId, idx, joinSp current, start, start + (joinSp current).length⟩]
  | s :: rest, current, curLen, idx, start =>
    if !current.isEmpty && curLen + s.length > cs then
      ⟨docId, idx, joinSp current, start, start + (joinSp current).length⟩ ::
        chunkLoop cs ov docId rest
          (resplitFilter (get_overlap_text ov current) ++ [s])
          ((get_overlap_text ov current).length + (s.length + 1)) (idx + 1)
          (start + (joinSp current).length - (get_overlap_text ov current).length)
    else
      chunkLoop cs ov docId rest (current ++ [s]) (curLen + (s.length + 1)) idx start

/-- `SemanticChunker.chunk_text`; `none` models the `ValueError` raised on
empty/whitespace-only input. -/
def chunk_text (cs ov : Nat) (docId t : List Char) : Option (List DocumentChunk) :=
  if (strip t).isEmpty then none
  else some (chunkLoop cs ov docId (sentencesOf (normalize_text t)) [] 0 0 0)

/-- The sequence of overlap texts (`overlap_text` values) computed at the
chunk boundaries during a `chunkLoop` run, in order. -/
def chunkCarries (cs ov : Nat) :
    List (List Char) → List (List Char) → Nat → List (List Char)
  | [], _, _ => []
  | s :: rest, current, curLen =>
    if !current.isEmpty && curLen + s.length > cs then
      get_overlap_text ov current ::
        chunkCarries cs ov rest (resplitFilter (get_overlap_text ov current) ++ [s])
          ((get_overlap_text ov current).length + (s.length + 1))
    else
      chunkCarries cs ov rest (current ++ [s]) (curLen + (s.length + 1))

/-- The carries of a full `chunk_text` run on input `t`. -/
def carriesOf (cs ov : Nat) (t : List Char) : List (List Char) :=
  chunkCarries cs ov (sentencesOf (normalize_text t)) [] 0

/-- `SemanticChunker.__init__`: raises `ValueError` iff `overlap >= chunk_size`. -/
def semanticInit (cs ov : Nat) : Option (Nat × Nat) :=
  if ov ≥ cs then none else some (cs, ov)

/-- `FixedSizeChunker.__init__`: stores the configuration with no validation. -/
def fixedInit (cs ov : Nat) : Option (Nat × Nat) :=
  some (cs, ov)

/-- Python slice `t[start:end]` for `0 ≤ start ≤ end` (the only offsets
reachable in the claims' configurations); a slice past the string end
truncates. -/
def sliceInt (t : List Char) (start endc : Int) : List Char :=
  (t.drop start.toNat).take (endc.toNat - start.toNat)

/-- The `while start < len(text)` loop of `FixedSizeChunker.chunk_text`,
with explicit fuel: `none` means the fuel ran out before the loop finished
(the loop body itself never fails). -/
def fixedLoop (cs ov : Nat) (docId t : List Char) :
    Nat → Int → Nat → Option (List DocumentChunk)
  | fuel, start, idx =>
    if start < (t.length : Int) then
      match fuel with
      | 0 => none
      | fuel' + 1 =>
        (fixedLoop cs ov docId t fuel' (start + ((cs : Int) - ov)) (idx + 1)).map
          (fun cks => ⟨docId, idx, sliceInt t start (start + cs), start, start + cs⟩ :: cks)
    else some []

/-- `FixedSizeChunker.chunk_text`: `Except` error models the `ValueError`
on empty input, inner `Option` the fuel bound of the while loop. -/
def fixed_chunk_text (cs ov : Nat) (docId t : List Char) (fuel : Nat) :
    Except Unit (Option (List DocumentChunk)) :=
  if (strip t).isEmpty then .error ()
  else .ok (fixedLoop cs ov docId (strip t) fuel 0 0)

/-- Helper for `reconstruct`: the non-overlapping portion of each chunk
after the first is its text with the first `prev.end_char - start_char`
characters (the back-referenced overlap region) removed. -/
def reconAux (prev : DocumentChunk) : List DocumentChunk → List Char
  | [] => []
  | c :: rest => c.text.drop (prev.end_char - c.start_char).toNat ++ reconAux c rest

/-- Round-trip reconstruction of the spec: the first chunk's full text
followed by the non-overlapping portion of every later chunk. -/
def reconstruct : List DocumentChunk → List Char
  | [] => []
  | c :: rest => c.text ++ reconAux c rest

/-- A boundary carry is harmless when it is non-empty and the `". "`
re-split of `chunk_text` re-joins to the carry verbatim (no `". "`
occurrence inside the carried text). -/
def goodCarry (c : List Char) : Prop := c ≠ [] ∧ joinSp (resplitFilter c) = c

/-! ## Extractive summarization (src/app/core/summarization.py)

Embedding vectors are `List ℚ`; the embedding provider is an explicit
function argument (`embedding_generator` is an external collaborator).  The
provider here is a total function, so the `try/except` unranked-fallback
path of `summarize` is unreachable and not modelled. -/

/-- A sentence candidate of `ExtractiveSummarizer.summarize`
(`{'text': ..., 'chunk_idx': ..., 'sent_idx': ...}`). -/
structure SentCand where
  text : List Char
  chunk_idx : Nat
  sent_idx : Nat
deriving DecidableEq

instance : Inhabited SentCand := ⟨⟨[], 0, 0⟩⟩

/-- `ExtractiveSummarizer._extract_sentences` (same pattern and stripping
as the chunker). -/
def extract_sentences (t : List Char) : List (List Char) :=
  stripNonempty (sentSplit t)

/-- The candidate pool built by `summarize`: sentences per retrieved chunk,
keeping those whose stripped length exceeds 20. -/
def buildCands (retrieved : List (List Char)) : List SentCand :=
  retrieved.enum.flatMap fun p =>
    (extract_sentences p.2).enum.filterMap fun q =>
      if 20 < (strip q.2).length then some ⟨q.2, p.1, q.1⟩ else none

/-- Dot product of two vectors. -/
def dot (x y : List ℚ) : ℚ := (List.zipWith (· * ·) x y).sum

/-- `sklearn.metrics.pairwise.cosine_similarity` on a pair of vectors.  The
embedding provider returns unit-norm vectors (spec §4.4/§6: "all
pre-normalized to unit length"), under which cosine similarity is exactly
the dot product. -/
def cosineSim (x y : List ℚ) : ℚ := dot x y

/-- `np.max` over a nonempty score list (0 junk value on `[]`). -/
def listMax : List ℚ → ℚ
  | [] => 0
  | x :: rest => rest.foldl max x

/-- Helper for `argmaxIdx`: running first-occurrence maximum. -/
def argmaxAux : List ℚ → Nat → ℚ → Nat → Nat
  | [], _, _, best => best
  | x :: rest, i, bv, best =>
    if x > bv then argmaxAux rest (i + 1) x i
    else argmaxAux rest (i + 1) bv best

/-- `np.argmax`: index of the first occurrence of the maximum (0 junk value
on `[]`, where NumPy raises). -/
def argmaxIdx : List ℚ → Nat
  | [] => 0
  | x :: rest => argmaxAux rest 1 x 0

/-- `scores[i]`. -/
def getQ (l : List ℚ) (i : Nat) : ℚ := l.getD i 0

/-- `embeddings[i]`. -/
def getEmb (embs : List (List ℚ)) (i : Nat) : List ℚ := embs.getD i []

/-- `np.max(cosine_similarity(embeddings[idx].reshape(1, -1),
embeddings[selected]))`: highest similarity of candidate `i` to any already
selected embedding (`selected` is nonempty at every use). -/
def maxSimTo (embs : List (List ℚ)) (selected : List Nat) (i : Nat) : ℚ :=
  listMax (selected.map fun j => cosineSim (getEmb embs i) (getEmb embs j))

/-- The skip test of the selection round:
`max_similarity > self.diversity_threshold`. -/
def roundSkip (thr : ℚ) (embs : List (List ℚ)) (selected : List Nat) (i : Nat) : Bool :=
  maxSimTo embs selected i > thr

/-- `combined_score = relevance - 0.3 * max_similarity`. -/
def roundCombined (scores : List ℚ) (embs : List (List ℚ)) (selected : List Nat)
    (i : Nat) : ℚ :=
  getQ scores i - 3 / 10 * maxSimTo embs selected i

/-- The inner `for idx in remaining` loop of `_select_diverse_sentences`,
threading `best_score` (initially `-1`) and `best_idx` (initially `None`). -/
def pickBest (thr : ℚ) (scores : List ℚ) (embs : List (List ℚ)) (selected : List Nat) :
    List Nat → ℚ → Option Nat → Option Nat
  | [], _, best => best
  | i :: rest, bestScore, best =>
    if roundSkip thr embs selected i then
      pickBest thr scores embs selected rest bestScore best
    else
      if roundCombined scores embs selected i > bestScore then
        pickBest thr scores embs selected rest (roundCombined scores embs selected i) (some i)
      else
        pickBest thr scores embs selected rest bestScore best

/-- Helper for `maxByScore`: Python `max` keeps the first element among
ties (replacement only on strictly greater key). -/
def maxByAux (scores : List ℚ) (best : Nat) : List Nat → Nat
  | [] => best
  | i :: rest =>
    if getQ scores i > getQ scores best then maxByAux scores i rest
    else maxByAux scores best rest

/-- `max(remaining, key=lambda i: scores[i])` (first maximum wins). -/
def maxByScore (scores : List ℚ) : List Nat → Nat
  | [] => 0
  | i :: rest => maxByAux scores i rest

/-- The `while len(selected) < max_sentences and remaining` loop; the fuel
is an upper bound on iterations (each iteration removes one element of
`remaining`, so `remaining.length` fuel suffices). -/
def selectLoop (thr : ℚ) (maxS : Nat) (scores : List ℚ) (embs : List (List ℚ)) :
    Nat → List Nat → List Nat → List Nat
  | 0, selected, _ => selected
  | fuel + 1, selected, remaining =>
    if selected.length < maxS && !remaining.isEmpty then
      match pickBest thr scores embs selected remaining (-1) none with
      | some b => selectLoop thr maxS scores embs fuel (selected ++ [b]) (remaining.erase b)
      | none =>
        match remaining with
        | [] => selected
        | _ :: _ =>
          selectLoop thr maxS scores embs fuel
            (selected ++ [maxByScore scores remaining]) (remaining.erase (maxByScore scores remaining))
    else selected

/-- `ExtractiveSummarizer._select_diverse_sentences`. -/
def select_diverse_sentences (thr : ℚ) (scores : List ℚ) (embs : List (List ℚ))
    (maxS : Nat) : List Nat :=
  let best := argmaxIdx scores
  selectLoop thr maxS scores embs scores.length [best] ((List.range scores.length).erase best)

/-- The sort key `(chunk_idx, sent_idx)` of candidate index `i`. -/
def pairKey (cands : List SentCand) (i : Nat) : Nat × Nat :=
  ((cands.getD i default).chunk_idx, (cands.getD i default).sent_idx)

/-- Lexicographic order on the sort keys (Python tuple comparison). -/
def lexLe (a b : Nat × Nat) : Bool :=
  a.1 < b.1 || (a.1 = b.1 && a.2 ≤ b.2)

/-- Insertion step of the key sort. -/
def insertByKey (cands : List SentCand) (x : Nat) : List Nat → List Nat
  | [] => [x]
  | y :: ys =>
    if lexLe (pairKey cands x) (pairKey cands y) then x :: y :: ys
    else y :: insertByKey cands x ys

/-- `sorted(selected_indices, key=...)`: the selected candidates all have
distinct `(chunk_idx, sent_idx)` keys, so the stable Python sort agrees
with this insertion sort. -/
def sortByKey (cands : List SentCand) : List Nat → List Nat
  | [] => []
  | x :: xs => insertByKey cands x (sortByKey cands xs)

/-- `ExtractiveSummarizer.summarize` (success path; the provider is a total
function, see the section comment). -/
def summarize (defaultMax : Nat) (thr : ℚ) (embedText : List Char → List ℚ)
    (query : List Char) (retrieved : List (List Char)) (maxOver : Option Nat) :
    List Char :=
  let maxS := match maxOver with
    | none => defaultMax
    | some 0 => defaultMax
    | some k => k
  if retrieved.isEmpty then ("No relevant content found.").toList
  else
    let cands := buildCands retrieved
    if cands.isEmpty then ("No suitable sentences found for summarization.").toList
    else
      let qEmb := embedText query
      let embs := cands.map fun c => embedText c.text
      let scores := embs.map fun e => cosineSim e qEmb
      let sel := select_diverse_sentences thr scores embs maxS
      joinSp ((sortByKey cands sel).map fun i => (cands.getD i default).text)

/-- Observer projection of `summarize`: the `selected_indices` value (in
selection order) computed on the assembly path, before sorting. -/
def summarizeSelected (defaultMax : Nat) (thr : ℚ) (embedText : List Char → List ℚ)
    (query : List Char) (retrieved : List (List Char)) (maxOver : Option Nat) :
    List Nat :=
  let maxS := match maxOver with
    | none => defaultMax
    | some 0 => defaultMax
    | some k => k
  let cands := buildCands retrieved
  let embs := cands.map fun c => embedText c.text
  let scores := embs.map fun e => cosineSim e (embedText query)
  select_diverse_sentences thr scores embs maxS

/-! ## Theorems -/

/-- C2 counterexample: `FixedSizeChunker.__init__` performs no validation,
so construction with `overlap = chunk_size = 512` succeeds instead of
raising `ConfigError`. -/
theorem C2_counterexample : fixedInit 512 512 = some (512, 512) := rfl

/-- C2 (amended): `SemanticChunker` construction raises exactly when
`overlap ≥ chunk_size` and succeeds exactly when `overlap < chunk_size`,
at construction time; `FixedSizeChunker` construction always succeeds,
with no overlap validation. -/
theorem C2_validation (cs ov : Nat) :
    (cs ≤ ov → semanticInit cs ov = none) ∧
    (ov < cs → semanticInit cs ov = some (cs, ov)) ∧
    fixedInit cs ov = some (cs, ov) := by
  refine ⟨fun h => ?_, fun h => ?_, rfl⟩
  · simp [semanticInit]
    omega
  · simp [semanticInit]
    omega

/-- Witness for `C2_validation` at concrete configurations. -/
theorem C2_validation_witness :
    semanticInit 512 512 = none ∧ semanticInit 512 128 = some (512, 128) ∧
    fixedInit 512 512 = some (512, 512) := by
  obtain ⟨a, -, c⟩ := C2_validation 512 512
  obtain ⟨-, b, -⟩ := C2_validation 512 128
  exact ⟨a (by decide), b (by decide), c⟩

/-- C3 counterexample: the constructor accepts `chunk_size = overlap = 512`,
and on the one-character input "a" the resulting `chunk_text` loop never
terminates (the start offset advances by 0): no amount of fuel completes
the loop. -/
theorem C3_counterexample :
    fixedInit 512 512 = some (512, 512) ∧
    ∀ fuel : Nat, fixedLoop 512 512 (['d']) (['a']) fuel 0 0 = none := by
  have key : ∀ (fuel idx : Nat), fixedLoop 512 512 (['d']) (['a']) fuel 0 idx = none := by
    intro fuel
    induction fuel with
    | zero =>
      intro idx
      rw [fixedLoop]
      norm_num
    | succ n ih =>
      intro idx
      rw [fixedLoop]
      norm_num
      exact ih (idx + 1)
  exact ⟨rfl, fun fuel => key fuel 0⟩

/-- The while loop of `FixedSizeChunker.chunk_text` finishes within
`len(text) - start` iterations whenever the step `chunk_size - overlap`
is positive. -/
theorem fixedLoop_isSome (cs ov : Nat) (d t : List Char) (hcfg : ov < cs) :
    ∀ (fuel : Nat) (start : Int) (idx : Nat),
      ((t.length : Int) - start).toNat ≤ fuel →
      (fixedLoop cs ov d t fuel start idx).isSome := by
  intro fuel
  induction fuel with
  | zero =>
    intro start idx hle
    have hns : ¬ start < (t.length : Int) := by omega
    rw [fixedLoop, if_neg hns]
    rfl
  | succ n ih =>
    intro start idx hle
    by_cases hs : start < (t.length : Int)
    · rw [fixedLoop, if_pos hs]
      simpa [Option.isSome_map] using ih (start + ((cs : Int) - ov)) (idx + 1) (by omega)
    · rw [fixedLoop, if_neg hs]
      rfl

/-- C3 (amended): for every configuration with `overlap < chunk_size` (the
configurations `SemanticChunker` would accept) and every input with
non-empty trimmed text, `FixedSizeChunker.chunk_text` terminates: fuel equal
to the trimmed length completes the loop. -/
theorem C3_termination (cs ov : Nat) (d t : List Char) (hcfg : ov < cs)
    (ht : ¬ (strip t).isEmpty) :
    ∃ cks, fixed_chunk_text cs ov d t ((strip t).length) = .ok (some cks) := by
  have h := fixedLoop_isSome cs ov d (strip t) hcfg ((strip t).length) 0 0 (by omega)
  obtain ⟨cks, hc⟩ := Option.isSome_iff_exists.mp h
  refine ⟨cks, ?_⟩
  rw [fixed_chunk_text, if_neg ht, hc]

/-- Witness for `C3_termination`: a 60-character input with
`chunk_size = 50, overlap = 10`. -/
theorem C3_termination_witness :
    ∃ cks, fixed_chunk_text 50 10 (['d']) (List.replicate 60 'a') 60 = .ok (some cks) := by
  have h := C3_termination 50 10 (['d']) (List.replicate 60 'a') (by decide) (by decide)
  have hlen : (strip (List.replicate 60 'a')).length = 60 := by decide
  rw [hlen] at h
  exact h

/-- C9: every chunk emitted by the `FixedSizeChunker.chunk_text` loop has
`end_char = start_char + chunk_size`, the final (possibly short-sliced)
chunk included. -/
theorem C9_chunk_width (cs ov : Nat) (d t : List Char) :
    ∀ (fuel : Nat) (start : Int) (idx : Nat) (cks : List DocumentChunk),
      fixedLoop cs ov d t fuel start idx = some cks →
      ∀ c ∈ cks, c.end_char = c.start_char + cs := by
  intro fuel
  induction fuel with
  | zero =>
    intro start idx cks h c hc
    by_cases hs : start < (t.length : Int)
    · rw [fixedLoop, if_pos hs] at h
      exact absurd h (by simp)
    · rw [fixedLoop, if_neg hs] at h
      obtain rfl : ([] : List DocumentChunk) = cks := by simpa using h
      simp at hc
  | succ n ih =>
    intro start idx cks h c hc
    by_cases hs : start < (t.length : Int)
    · rw [fixedLoop, if_pos hs] at h
      obtain ⟨cks', hrec, rfl⟩ := Option.map_eq_some'.mp h
      rcases List.mem_cons.mp hc with rfl | hmem
      · rfl
      · exact ih _ _ _ hrec c hmem
    · rw [fixedLoop, if_neg hs] at h
      obtain rfl : ([] : List DocumentChunk) = cks := by simpa using h
      simp at hc

/-- Witness for `C9_chunk_width` on a concrete run (`chunk_size = 50`,
`overlap = 10`, 60 characters), also exhibiting the implicit consequence:
the last chunk's `end_char` (90) exceeds the trimmed input length (60) and
differs from `start_char` plus the length of that chunk's sliced text. -/
theorem C9_chunk_width_witness :
    (∀ c ∈ (fixedLoop 50 10 (['d']) (List.replicate 60 'a') 60 0 0).getD [],
      c.end_char = c.start_char + 50) ∧
    (60 : Int) <
      ((((fixedLoop 50 10 (['d']) (List.replicate 60 'a') 60 0 0).getD []).getLast?.getD
        default).end_char) ∧
    ((((fixedLoop 50 10 (['d']) (List.replicate 60 'a') 60 0 0).getD []).getLast?.getD
        default).end_char) ≠
      ((((fixedLoop 50 10 (['d']) (List.replicate 60 'a') 60 0 0).getD []).getLast?.getD
        default).start_char) +
      (((((fixedLoop 50 10 (['d']) (List.replicate 60 'a') 60 0 0).getD []).getLast?.getD
        default).text.length : Int)) := by
  refine ⟨C9_chunk_width 50 10 (['d']) (List.replicate 60 'a') 60 0 0 _ (by decide), by decide, by decide⟩

/-- The sentence list fed to the accumulation loop is never empty (the
explicit fallback `sentences = [text]`). -/
theorem sentencesOf_ne_nil (t' : List Char) : sentencesOf t' ≠ [] := by
  rw [sentencesOf]
  split
  · simp
  · next h => simpa using h

/-- The accumulation loop emits at least one chunk when its buffer is
non-empty or sentences remain. -/
theorem chunkLoop_ne_nil (cs ov : Nat) (d : List Char) :
    ∀ (sents current : List (List Char)) (curLen idx : Nat) (start : Int),
      current ≠ [] ∨ sents ≠ [] →
      chunkLoop cs ov d sents current curLen idx start ≠ [] := by
  intro sents
  induction sents with
  | nil =>
    intro current curLen idx start h
    rcases h with h | h
    · rw [chunkLoop]
      simp [h]
    · exact absurd rfl h
  | cons s rest ih =>
    intro current curLen idx start _
    rw [chunkLoop]
    split
    · simp
    · exact ih (current ++ [s]) _ idx start (Or.inl (by simp))

/-- The `chunk_index` fields emitted by the accumulation loop are the
consecutive integers starting at the loop's running index. -/
theorem chunkLoop_indices (cs ov : Nat) (d : List Char) :
    ∀ (sents current : List (List Char)) (curLen idx : Nat) (start : Int),
      (chunkLoop cs ov d sents current curLen idx start).map DocumentChunk.chunk_index
        = List.range' idx (chunkLoop cs ov d sents current curLen idx start).length := by
  intro sents
  induction sents with
  | nil =>
    intro current curLen idx start
    rw [chunkLoop]
    split <;> simp [List.range'_succ]
  | cons s rest ih =>
    intro current curLen idx start
    rw [chunkLoop]
    split
    · simp [List.range'_succ, ih]
    · exact ih (current ++ [s]) _ idx start

/-- C7: on every input with non-empty trimmed text,
`SemanticChunker.chunk_text` succeeds with at least one chunk, and the
`chunk_index` values are exactly `0, 1, ..., N-1` in order. -/
theorem C7_nonempty_sequential_indices (cs ov : Nat) (d t : List Char)
    (hcfg : ov < cs) (ht : ¬ (strip t).isEmpty) :
    ∃ cks, chunk_text cs ov d t = some cks ∧ cks ≠ [] ∧
      cks.map DocumentChunk.chunk_index = List.range cks.length := by
  refine ⟨chunkLoop cs ov d (sentencesOf (normalize_text t)) [] 0 0 0, ?_, ?_, ?_⟩
  · rw [chunk_text, if_neg ht]
  · exact chunkLoop_ne_nil cs ov d _ [] 0 0 0 (Or.inr (sentencesOf_ne_nil _))
  · rw [chunkLoop_indices, List.range_eq_range']

/-- Witness for `C7_nonempty_sequential_indices` on a concrete document. -/
theorem C7_witness :
    ∃ cks, chunk_text 30 10 (['d'])
        (("Hello world. Another sentence here. And one more follows.").toList) = some cks ∧
      cks ≠ [] ∧ cks.map DocumentChunk.chunk_index = List.range cks.length :=
  C7_nonempty_sequential_indices 30 10 (['d']) _ (by decide) (by decide)

/-- C6 counterexample: with `chunk_size = 10, overlap = 5 > 0` on
"aaaaaa. bbbbbb." the carried overlap is empty (no sentence fits the
window), and the second chunk's `start_char` equals — does not undercut —
the first chunk's `end_char`. -/
theorem C6_counterexample :
    0 < 5 ∧
    ((chunk_text 10 5 (['d']) (("aaaaaa. bbbbbb.").toList)).getD []).length = 2 ∧
    ¬ ((((chunk_text 10 5 (['d']) (("aaaaaa. bbbbbb.").toList)).getD []).getD 1
          default).start_char
        < (((chunk_text 10 5 (['d']) (("aaaaaa. bbbbbb.").toList)).getD []).getD 0
          default).end_char) := by
  decide

/-- The first chunk emitted by the accumulation loop starts at the loop's
running `start_char`. -/
theorem chunkLoop_head_start (cs ov : Nat) (d : List Char) :
    ∀ (sents current : List (List Char)) (curLen idx : Nat) (start : Int),
      current ≠ [] →
      (chunkLoop cs ov d sents current curLen idx start).head?.map
        DocumentChunk.start_char = some start := by
  intro sents
  induction sents with
  | nil =>
    intro current curLen idx start h
    rw [chunkLoop]
    simp [h]
  | cons s rest ih =>
    intro current curLen idx start h
    rw [chunkLoop]
    split
    · rfl
    · exact ih (current ++ [s]) _ idx start (by simp)

/-- Each adjacent chunk pair of the accumulation loop satisfies
`next.start_char = prev.end_char - length(carried overlap text)`, pairing
the boundary with the corresponding entry of `chunkCarries`. -/
theorem chunkLoop_adjacent (cs ov : Nat) (d : List Char) :
    ∀ (sents current : List (List Char)) (curLen idx : Nat) (start : Int),
      current ≠ [] →
      List.Forall₂ (fun (c : List Char) (p : DocumentChunk × DocumentChunk) =>
          p.2.start_char = p.1.end_char - c.length)
        (chunkCarries cs ov sents current curLen)
        ((chunkLoop cs ov d sents current curLen idx start).zip
          (chunkLoop cs ov d sents current curLen idx start).tail) := by
  intro sents
  induction sents with
  | nil =>
    intro current curLen idx start h
    rw [chunkLoop, chunkCarries]
    simp [h]
  | cons s rest ih =>
    intro current curLen idx start h
    rw [chunkLoop, chunkCarries]
    by_cases hcond : (!current.isEmpty && decide (curLen + s.length > cs)) = true
    · rw [if_pos hcond, if_pos hcond]
      have hne : resplitFilter (get_overlap_text ov current) ++ [s] ≠ [] := by simp
      have hrec_ne := chunkLoop_ne_nil cs ov d rest
        (resplitFilter (get_overlap_text ov current) ++ [s])
        ((get_overlap_text ov current).length + (s.length + 1)) (idx + 1)
        (start + ((joinSp current).length : Int) - ((get_overlap_text ov current).length : Int))
        (Or.inl hne)
      obtain ⟨hd, tl, heq⟩ := List.exists_cons_of_ne_nil hrec_ne
      have hh := chunkLoop_head_start cs ov d rest
        (resplitFilter (get_overlap_text ov current) ++ [s])
        ((get_overlap_text ov current).length + (s.length + 1)) (idx + 1)
        (start + ((joinSp current).length : Int) - ((get_overlap_text ov current).length : Int))
        hne
      rw [heq] at hh
      have htail := ih (resplitFilter (get_overlap_text ov current) ++ [s])
        ((get_overlap_text ov current).length + (s.length + 1)) (idx + 1)
        (start + ((joinSp current).length : Int) - ((get_overlap_text ov current).length : Int))
        hne
      rw [heq] at htail
      rw [heq]
      refine List.Forall₂.cons ?_ htail
      simpa using hh
    · rw [if_neg hcond, if_neg hcond]
      exact ih (current ++ [s]) _ idx start (by simp)

/-- C6 (amended): whenever `chunk_text` succeeds, every chunk after the
first has `start_char ≤ end_char` of the preceding chunk, with strict
inequality exactly guaranteed when the carried overlap text at that
boundary is non-empty (an empty carry — every trailing sentence longer
than the overlap window — gives equality even with `overlap > 0`). -/
theorem C6_back_reference (cs ov : Nat) (d t : List Char)
    (hcfg : ov < cs) (hov : 0 < ov) (ht : ¬ (strip t).isEmpty) :
    ∃ cks, chunk_text cs ov d t = some cks ∧
      List.Forall₂ (fun (c : List Char) (p : DocumentChunk × DocumentChunk) =>
          p.2.start_char ≤ p.1.end_char ∧
          (c ≠ [] → p.2.start_char < p.1.end_char))
        (carriesOf cs ov t) (cks.zip cks.tail) := by
  refine ⟨chunkLoop cs ov d (sentencesOf (normalize_text t)) [] 0 0 0, ?_, ?_⟩
  · rw [chunk_text, if_neg ht]
  · have base : List.Forall₂ (fun (c : List Char) (p : DocumentChunk × DocumentChunk) =>
        p.2.start_char = p.1.end_char - c.length)
        (carriesOf cs ov t)
        ((chunkLoop cs ov d (sentencesOf (normalize_text t)) [] 0 0 0).zip
          (chunkLoop cs ov d (sentencesOf (normalize_text t)) [] 0 0 0).tail) := by
      obtain ⟨s, rest, hs⟩ := List.exists_cons_of_ne_nil (sentencesOf_ne_nil (normalize_text t))
      rw [carriesOf, hs]
      rw [chunkLoop, chunkCarries]
      norm_num
      exact chunkLoop_adjacent cs ov d rest [s] (s.length + 1) 0 0 (by simp)
    refine base.imp ?_
    intro c p hp
    refine ⟨by omega, fun hc => ?_⟩
    have : 0 < c.length := List.length_pos.mpr hc
    omega

/-- Witness for `C6_back_reference` on a document with a non-empty carry
(second chunk genuinely back-references into the first). -/
theorem C6_back_reference_witness :
    ∃ cks, chunk_text 12 6 (['d']) (("aaaa. bbbb. cccc.").toList) = some cks ∧
      List.Forall₂ (fun (c : List Char) (p : DocumentChunk × DocumentChunk) =>
          p.2.start_char ≤ p.1.end_char ∧
          (c ≠ [] → p.2.start_char < p.1.end_char))
        (carriesOf 12 6 (("aaaa. bbbb. cccc.").toList)) (cks.zip cks.tail) :=
  C6_back_reference 12 6 (['d']) _ (by decide) (by decide) (by decide)

/-- Spec of the running-argmax fold: the result indexes a maximal score,
and every strictly earlier index holds a strictly smaller score. -/
theorem argmaxAux_spec (scores : List ℚ) :
    ∀ (l : List ℚ) (i : Nat) (bv : ℚ) (best : Nat),
      l = scores.drop i → best < scores.length → bv = getQ scores best →
      (∀ k, k < i → getQ scores k ≤ bv) →
      (∀ k, k < best → getQ scores k < bv) →
      argmaxAux l i bv best < scores.length ∧
      (∀ k, k < scores.length → getQ scores k ≤ getQ scores (argmaxAux l i bv best)) ∧
      (∀ k, k < argmaxAux l i bv best → getQ scores k < getQ scores (argmaxAux l i bv best)) := by
  intro l
  induction l with
  | nil =>
    intro i bv best hdrop hb hbv hle hlt
    have hlen : scores.length ≤ i := by
      have := congrArg List.length hdrop
      simp at this
      omega
    rw [argmaxAux]
    exact ⟨hb, fun k hk => hbv ▸ hle k (by omega), fun k hk => hbv ▸ hlt k hk⟩
  | cons x rest ih =>
    intro i bv best hdrop hb hbv hle hlt
    have hi : i < scores.length := by
      have := congrArg List.length hdrop
      simp at this
      omega
    have hx : x = getQ scores i := by
      have h1 : (scores.drop i).head? = some x := by rw [← hdrop]; rfl
      rw [List.head?_drop] at h1
      simp [getQ, List.getD_eq_getElem?_getD, h1]
    have hrest : rest = scores.drop (i + 1) := by
      have := congrArg List.tail hdrop
      simpa [List.tail_drop] using this
    rw [argmaxAux]
    by_cases hgt : x > bv
    · rw [if_pos hgt]
      refine ih (i + 1) x i hrest hi hx (fun k hk => ?_) (fun k hk => ?_)
      · rcases Nat.lt_or_ge k i with h | h
        · exact le_of_lt (lt_of_le_of_lt (hle k h) hgt)
        · have : k = i := by omega
          rw [this, ← hx]
      · exact lt_of_le_of_lt (hle k hk) hgt
    · rw [if_neg hgt]
      refine ih (i + 1) bv best hrest hb hbv (fun k hk => ?_) hlt
      rcases Nat.lt_or_ge k i with h | h
      · exact hle k h
      · have : k = i := by omega
        rw [this, ← hx]
        exact le_of_not_lt hgt

/-- `np.argmax` spec: first occurrence of the maximum score. -/
theorem argmaxIdx_spec (scores : List ℚ) (h : scores ≠ []) :
    argmaxIdx scores < scores.length ∧
    (∀ k, k < scores.length → getQ scores k ≤ getQ scores (argmaxIdx scores)) ∧
    (∀ k, k < argmaxIdx scores → getQ scores k < getQ scores (argmaxIdx scores)) := by
  obtain ⟨x, rest, rfl⟩ := List.exists_cons_of_ne_nil h
  rw [argmaxIdx]
  refine argmaxAux_spec (x :: rest) rest 1 x 0 rfl (by simp) (by simp [getQ]) ?_ ?_
  · intro k hk
    have : k = 0 := by omega
    simp [this, getQ]
  · intro k hk
    exact absurd hk (by omega)

/-- The inner for-loop result, when `some`, is either the carried-in
accumulator or a member of the scanned list. -/
theorem pickBest_mem (thr : ℚ) (scores : List ℚ) (embs : List (List ℚ)) (sel : List Nat) :
    ∀ (rem : List Nat) (bs : ℚ) (o : Option Nat) (b : Nat),
      pickBest thr scores embs sel rem bs o = some b → o = some b ∨ b ∈ rem := by
  intro rem
  induction rem with
  | nil =>
    intro bs o b h
    rw [pickBest] at h
    exact Or.inl h
  | cons i rest ih =>
    intro bs o b h
    rw [pickBest] at h
    by_cases h1 : roundSkip thr embs sel i = true
    · rw [if_pos h1] at h
      rcases ih _ _ _ h with h2 | h2
      · exact Or.inl h2
      · exact Or.inr (List.mem_cons_of_mem _ h2)
    · rw [if_neg h1] at h
      by_cases h2 : roundCombined scores embs sel i > bs
      · rw [if_pos h2] at h
        rcases ih _ _ _ h with h3 | h3
        · exact Or.inr (by simp at h3; simp [h3])
        · exact Or.inr (List.mem_cons_of_mem _ h3)
      · rw [if_neg h2] at h
        rcases ih _ _ _ h with h3 | h3
        · exact Or.inl h3
        · exact Or.inr (List.mem_cons_of_mem _ h3)

/-- The Python-`max` fold keeps its accumulator or picks a list member. -/
theorem maxByAux_mem (scores : List ℚ) :
    ∀ (l : List Nat) (best : Nat),
      maxByAux scores best l = best ∨ maxByAux scores best l ∈ l := by
  intro l
  induction l with
  | nil => intro best; exact Or.inl rfl
  | cons i rest ih =>
    intro best
    rw [maxByAux]
    split
    · rcases ih i with h | h
      · exact Or.inr (by rw [h]; exact List.mem_cons_self i rest)
      · exact Or.inr (List.mem_cons_of_mem _ h)
    · rcases ih best with h | h
      · exact Or.inl h
      · exact Or.inr (List.mem_cons_of_mem _ h)

/-- `max(remaining, key=...)` returns a member of `remaining`. -/
theorem maxByScore_mem (scores : List ℚ) (l : List Nat) (h : l ≠ []) :
    maxByScore scores l ∈ l := by
  obtain ⟨i, rest, rfl⟩ := List.exists_cons_of_ne_nil h
  rw [maxByScore]
  rcases maxByAux_mem scores rest i with h1 | h1
  · rw [h1]; exact List.mem_cons_self i rest
  · exact List.mem_cons_of_mem _ h1

/-- Unfolding equation for `selectLoop` at fuel 0. -/
theorem selectLoop_zero (thr : ℚ) (maxS : Nat) (scores : List ℚ) (embs : List (List ℚ))
    (sel rem : List Nat) : selectLoop thr maxS scores embs 0 sel rem = sel := by
  rw [selectLoop.eq_def]

/-- Unfolding equation for `selectLoop` at successor fuel. -/
theorem selectLoop_succ (thr : ℚ) (maxS : Nat) (scores : List ℚ) (embs : List (List ℚ))
    (n : Nat) (sel rem : List Nat) :
    selectLoop thr maxS scores embs (n + 1) sel rem =
      (if sel.length < maxS && !rem.isEmpty then
        match pickBest thr scores embs sel rem (-1) none with
        | some b => selectLoop thr maxS scores embs n (sel ++ [b]) (rem.erase b)
        | none =>
          match rem with
          | [] => sel
          | _ :: _ =>
            selectLoop thr maxS scores embs n (sel ++ [maxByScore scores rem])
              (rem.erase (maxByScore scores rem))
      else sel) := by
  rw [selectLoop.eq_def]

/-- Loop unfolding: guard fails, loop returns `selected`. -/
theorem selectLoop_succ_stop (thr : ℚ) (maxS : Nat) (scores : List ℚ)
    (embs : List (List ℚ)) (n : Nat) (sel rem : List Nat)
    (hcond : ¬ ((sel.length < maxS && !rem.isEmpty) = true)) :
    selectLoop thr maxS scores embs (n + 1) sel rem = sel := by
  rw [selectLoop_succ, if_neg hcond]

/-- Loop unfolding: guard holds and the round found a diverse best index. -/
theorem selectLoop_succ_some (thr : ℚ) (maxS : Nat) (scores : List ℚ)
    (embs : List (List ℚ)) (n : Nat) (sel rem : List Nat) (b : Nat)
    (hcond : (sel.length < maxS && !rem.isEmpty) = true)
    (hpb : pickBest thr scores embs sel rem (-1) none = some b) :
    selectLoop thr maxS scores embs (n + 1) sel rem =
      selectLoop thr maxS scores embs n (sel ++ [b]) (rem.erase b) := by
  rw [selectLoop_succ, if_pos hcond, hpb]

/-- Loop unfolding: guard holds, every candidate was skipped or beaten by
the `-1` initialization, so the top-relevance fallback fires. -/
theorem selectLoop_succ_none (thr : ℚ) (maxS : Nat) (scores : List ℚ)
    (embs : List (List ℚ)) (n : Nat) (sel rem : List Nat)
    (hcond : (sel.length < maxS && !rem.isEmpty) = true)
    (hpb : pickBest thr scores embs sel rem (-1) none = none) :
    selectLoop thr maxS scores embs (n + 1) sel rem =
      selectLoop thr maxS scores embs n (sel ++ [maxByScore scores rem])
        (rem.erase (maxByScore scores rem)) := by
  have hne : rem ≠ [] := by
    simp only [Bool.and_eq_true, Bool.not_eq_true', List.isEmpty_eq_false] at hcond
    exact hcond.2
  obtain ⟨i, rest, rfl⟩ := List.exists_cons_of_ne_nil hne
  rw [selectLoop_succ, if_pos hcond, hpb]

/-- The selection while-loop only appends to `selected`. -/
theorem selectLoop_append (thr : ℚ) (maxS : Nat) (scores : List ℚ) (embs : List (List ℚ)) :
    ∀ (fuel : Nat) (sel rem : List Nat),
      ∃ ext, selectLoop thr maxS scores embs fuel sel rem = sel ++ ext := by
  intro fuel
  induction fuel with
  | zero =>
    intro sel rem
    exact ⟨[], by rw [selectLoop_zero]; simp⟩
  | succ n ih =>
    intro sel rem
    by_cases hcond : (sel.length < maxS && !rem.isEmpty) = true
    · cases hpb : pickBest thr scores embs sel rem (-1) none with
      | some b =>
        rw [selectLoop_succ_some thr maxS scores embs n sel rem b hcond hpb]
        obtain ⟨ext, hx⟩ := ih (sel ++ [b]) (rem.erase b)
        exact ⟨[b] ++ ext, by rw [hx, List.append_assoc]⟩
      | none =>
        rw [selectLoop_succ_none thr maxS scores embs n sel rem hcond hpb]
        obtain ⟨ext, hx⟩ := ih (sel ++ [maxByScore scores rem]) (rem.erase (maxByScore scores rem))
        exact ⟨[maxByScore scores rem] ++ ext, by rw [hx, List.append_assoc]⟩
    · exact ⟨[], by rw [selectLoop_succ_stop thr maxS scores embs n sel rem hcond]; simp⟩

/-- The selection while-loop never grows `selected` past `max_sentences`
(beyond whatever length it already had). -/
theorem selectLoop_length (thr : ℚ) (maxS : Nat) (scores : List ℚ) (embs : List (List ℚ)) :
    ∀ (fuel : Nat) (sel rem : List Nat),
      (selectLoop thr maxS scores embs fuel sel rem).length ≤ max sel.length maxS := by
  intro fuel
  induction fuel with
  | zero =>
    intro sel rem
    rw [selectLoop_zero]
    exact le_max_left _ _
  | succ n ih =>
    intro sel rem
    by_cases hcond : (sel.length < maxS && !rem.isEmpty) = true
    · have hlen : sel.length < maxS := by
        simp only [Bool.and_eq_true, decide_eq_true_eq] at hcond
        exact hcond.1
      cases hpb : pickBest thr scores embs sel rem (-1) none with
      | some b =>
        rw [selectLoop_succ_some thr maxS scores embs n sel rem b hcond hpb]
        have := ih (sel ++ [b]) (rem.erase b)
        simp only [List.length_append, List.length_singleton] at this
        omega
      | none =>
        rw [selectLoop_succ_none thr maxS scores embs n sel rem hcond hpb]
        have := ih (sel ++ [maxByScore scores rem]) (rem.erase (maxByScore scores rem))
        simp only [List.length_append, List.length_singleton] at this
        omega
    · rw [selectLoop_succ_stop thr maxS scores embs n sel rem hcond]
      exact le_max_left _ _

/-- The selection while-loop preserves distinctness: appended indices come
from `remaining`, which stays disjoint from `selected`. -/
theorem selectLoop_nodup (thr : ℚ) (maxS : Nat) (scores : List ℚ) (embs : List (List ℚ)) :
    ∀ (fuel : Nat) (sel rem : List Nat),
      sel.Nodup → rem.Nodup → (∀ x ∈ rem, x ∉ sel) →
      (selectLoop thr maxS scores embs fuel sel rem).Nodup := by
  intro fuel
  induction fuel with
  | zero =>
    intro sel rem hsel _ _
    rw [selectLoop_zero]
    exact hsel
  | succ n ih =>
    intro sel rem hsel hrem hdisj
    by_cases hcond : (sel.length < maxS && !rem.isEmpty) = true
    · cases hpb : pickBest thr scores embs sel rem (-1) none with
      | some b =>
        rw [selectLoop_succ_some thr maxS scores embs n sel rem b hcond hpb]
        have hb : b ∈ rem := by
          rcases pickBest_mem thr scores embs sel rem (-1) none b hpb with h | h
          · exact absurd h (by simp)
          · exact h
        refine ih (sel ++ [b]) (rem.erase b) ?_ (hrem.erase b) ?_
        · simp [List.nodup_append, hsel, hdisj b hb]
        · intro x hx
          have := (hrem.mem_erase_iff).mp hx
          simp only [List.mem_append, List.mem_singleton]
          push_neg
          exact ⟨hdisj x this.2, this.1⟩
      | none =>
        rw [selectLoop_succ_none thr maxS scores embs n sel rem hcond hpb]
        have hne : rem ≠ [] := by
          simp only [Bool.and_eq_true, Bool.not_eq_true', List.isEmpty_eq_false] at hcond
          exact hcond.2
        have hb : maxByScore scores rem ∈ rem := maxByScore_mem scores rem hne
        refine ih (sel ++ [maxByScore scores rem]) (rem.erase (maxByScore scores rem)) ?_
          (hrem.erase _) ?_
        · simp [List.nodup_append, hsel, hdisj _ hb]
        · intro x hx
          have := (hrem.mem_erase_iff).mp hx
          simp only [List.mem_append, List.mem_singleton]
          push_neg
          exact ⟨hdisj x this.2, this.1⟩
    · rw [selectLoop_succ_stop thr maxS scores embs n sel rem hcond]
      exact hsel

/-- C4 (amended): for a non-empty score list and `max_count ≥ 1`,
`_select_diverse_sentences` returns at most `max_count` pairwise-distinct
indices, and the first returned index is the lowest index attaining the
maximum score. -/
theorem C4_selection_contract (thr : ℚ) (scores : List ℚ) (embs : List (List ℚ))
    (maxS : Nat) (h1 : scores ≠ []) (h2 : 1 ≤ maxS) :
    (select_diverse_sentences thr scores embs maxS).length ≤ maxS ∧
    (select_diverse_sentences thr scores embs maxS).Nodup ∧
    (select_diverse_sentences thr scores embs maxS).headD 0 < scores.length ∧
    (∀ k, k < scores.length →
      getQ scores k ≤ getQ scores ((select_diverse_sentences thr scores embs maxS).headD 0)) ∧
    (∀ k, k < (select_diverse_sentences thr scores embs maxS).headD 0 →
      getQ scores k < getQ scores ((select_diverse_sentences thr scores embs maxS).headD 0)) := by
  obtain ⟨as1, as2, as3⟩ := argmaxIdx_spec scores h1
  have hhead : (select_diverse_sentences thr scores embs maxS).headD 0 = argmaxIdx scores := by
    rw [select_diverse_sentences]
    obtain ⟨ext, hx⟩ := selectLoop_append thr maxS scores embs scores.length
      [argmaxIdx scores] ((List.range scores.length).erase (argmaxIdx scores))
    rw [hx]
    simp
  refine ⟨?_, ?_, ?_, ?_, ?_⟩
  · rw [select_diverse_sentences]
    have := selectLoop_length thr maxS scores embs scores.length
      [argmaxIdx scores] ((List.range scores.length).erase (argmaxIdx scores))
    simpa [Nat.max_eq_right h2] using this
  · rw [select_diverse_sentences]
    refine selectLoop_nodup thr maxS scores embs scores.length _ _ (by simp)
      ((List.nodup_range _).erase _) ?_
    intro x hx
    have := ((List.nodup_range scores.length).mem_erase_iff).mp hx
    simp [this.1]
  · rw [hhead]; exact as1
  · rw [hhead]; exact as2
  · rw [hhead]; exact as3

/-- C4 counterexample: with `max_count = 0` and the non-empty score array
`[1]`, `_select_diverse_sentences` still returns one index (the
unconditional argmax selection precedes the `max_count` check). -/
theorem C4_counterexample :
    ([(1 : ℚ)] ≠ []) ∧
    ¬ ((select_diverse_sentences (4 / 5) [(1 : ℚ)] [[(1 : ℚ)]] 0).length ≤ 0) := by
  have hsel : select_diverse_sentences (4 / 5) [(1 : ℚ)] [[(1 : ℚ)]] 0 = [0] := by
    norm_num [select_diverse_sentences, argmaxIdx, argmaxAux, selectLoop_succ,
      selectLoop_zero, List.range_succ]
  constructor
  · simp
  · simp [hsel]

/-- Witness for `C4_selection_contract` at a concrete round. -/
theorem C4_selection_contract_witness :
    (select_diverse_sentences (4 / 5) [(1 : ℚ)] [[(1 : ℚ)]] 1).length ≤ 1 ∧
    (select_diverse_sentences (4 / 5) [(1 : ℚ)] [[(1 : ℚ)]] 1).Nodup ∧
    (select_diverse_sentences (4 / 5) [(1 : ℚ)] [[(1 : ℚ)]] 1).headD 0 < 1 ∧
    (∀ k, k < [(1 : ℚ)].length →
      getQ [(1 : ℚ)] k ≤ getQ [(1 : ℚ)] ((select_diverse_sentences (4 / 5) [(1 : ℚ)] [[(1 : ℚ)]] 1).headD 0)) ∧
    (∀ k, k < (select_diverse_sentences (4 / 5) [(1 : ℚ)] [[(1 : ℚ)]] 1).headD 0 →
      getQ [(1 : ℚ)] k < getQ [(1 : ℚ)] ((select_diverse_sentences (4 / 5) [(1 : ℚ)] [[(1 : ℚ)]] 1).headD 0)) :=
  C4_selection_contract (4 / 5) [(1 : ℚ)] [[(1 : ℚ)]] 1 (by simp) (by omega)

/-- Postcondition of the inner for-loop: either every scanned candidate is
skipped or fails to beat the running best score (result is the carried
accumulator), or the result is the first candidate attaining the maximal
combined score among the non-skipped candidates that beat the carried
score. -/
theorem pickBest_post (thr : ℚ) (scores : List ℚ) (embs : List (List ℚ)) (sel : List Nat) :
    ∀ (rem : List Nat) (bs : ℚ) (o : Option Nat),
      (pickBest thr scores embs sel rem bs o = o ∧
        ∀ j ∈ rem, roundSkip thr embs sel j = true ∨
          roundCombined scores embs sel j ≤ bs)
      ∨ (∃ w l1 l2, pickBest thr scores embs sel rem bs o = some w ∧
          rem = l1 ++ w :: l2 ∧ roundSkip thr embs sel w = false ∧
          bs < roundCombined scores embs sel w ∧
          (∀ j ∈ l1, roundSkip thr embs sel j = false →
            roundCombined scores embs sel j < roundCombined scores embs sel w) ∧
          (∀ j ∈ l2, roundSkip thr embs sel j = false →
            roundCombined scores embs sel j ≤ roundCombined scores embs sel w)) := by
  intro rem
  induction rem with
  | nil =>
    intro bs o
    left
    exact ⟨by rw [pickBest], by simp⟩
  | cons i rest ih =>
    intro bs o
    rw [pickBest]
    by_cases h1 : roundSkip thr embs sel i = true
    · rw [if_pos h1]
      rcases ih bs o with ⟨hres, hall⟩ | ⟨w, l1, l2, hres, hdec, hw, hbs, hl1, hl2⟩
      · left
        refine ⟨hres, fun j hj => ?_⟩
        rcases List.mem_cons.mp hj with rfl | hj2
        · exact Or.inl h1
        · exact hall j hj2
      · right
        refine ⟨w, i :: l1, l2, hres, by rw [hdec]; rfl, hw, hbs, fun j hj hsk => ?_, hl2⟩
        rcases List.mem_cons.mp hj with rfl | hj2
        · exact absurd hsk (by simp [h1])
        · exact hl1 j hj2 hsk
    · rw [if_neg h1]
      by_cases h2 : roundCombined scores embs sel i > bs
      · rw [if_pos h2]
        rcases ih (roundCombined scores embs sel i) (some i) with
          ⟨hres, hall⟩ | ⟨w, l1, l2, hres, hdec, hw, hbs, hl1, hl2⟩
        · right
          refine ⟨i, [], rest, hres, rfl, Bool.not_eq_true _ ▸ h1, h2, by simp,
            fun j hj hsk => ?_⟩
          rcases hall j hj with h3 | h3
          · exact absurd h3 (by simp [hsk])
          · exact h3
        · right
          refine ⟨w, i :: l1, l2, hres, by rw [hdec]; rfl, hw, lt_trans h2 hbs,
            fun j hj hsk => ?_, hl2⟩
          rcases List.mem_cons.mp hj with rfl | hj2
          · exact hbs
          · exact hl1 j hj2 hsk
      · rw [if_neg h2]
        rcases ih bs o with ⟨hres, hall⟩ | ⟨w, l1, l2, hres, hdec, hw, hbs, hl1, hl2⟩
        · left
          refine ⟨hres, fun j hj => ?_⟩
          rcases List.mem_cons.mp hj with rfl | hj2
          · exact Or.inr (le_of_not_lt h2)
          · exact hall j hj2
        · right
          refine ⟨w, i :: l1, l2, hres, by rw [hdec]; rfl, hw, hbs,
            fun j hj hsk => ?_, hl2⟩
          rcases List.mem_cons.mp hj with rfl | hj2
          · exact lt_of_le_of_lt (le_of_not_lt h2) hbs
          · exact hl1 j hj2 hsk

/-- C5 (amended): in every loop round in which some remaining candidate is
non-skipped with combined score strictly above the `-1` initialization of
`best_score`, the index appended in that round is the non-skipped candidate
with the highest combined score, ties broken by lowest position in the
iteration order. -/
theorem C5_round_selection (thr : ℚ) (scores : List ℚ) (embs : List (List ℚ))
    (maxS fuel : Nat) (selected remaining : List Nat)
    (hlen : selected.length < maxS)
    (hex : ∃ i ∈ remaining, roundSkip thr embs selected i = false ∧
      -1 < roundCombined scores embs selected i) :
    ∃ w l1 l2,
      selectLoop thr maxS scores embs (fuel + 1) selected remaining =
        selectLoop thr maxS scores embs fuel (selected ++ [w]) (remaining.erase w) ∧
      remaining = l1 ++ w :: l2 ∧
      roundSkip thr embs selected w = false ∧
      (∀ j ∈ remaining, roundSkip thr embs selected j = false →
        roundCombined scores embs selected j ≤ roundCombined scores embs selected w) ∧
      (∀ j ∈ l1, roundSkip thr embs selected j = false →
        roundCombined scores embs selected j < roundCombined scores embs selected w) := by
  obtain ⟨i0, hi0mem, hi0skip, hi0c⟩ := hex
  have hne : remaining ≠ [] := fun h => by simp [h] at hi0mem
  have hcond : (selected.length < maxS && !remaining.isEmpty) = true := by
    simp only [Bool.and_eq_true, decide_eq_true_eq, Bool.not_eq_true',
      List.isEmpty_eq_false]
    exact ⟨hlen, hne⟩
  rcases pickBest_post thr scores embs selected remaining (-1) none with
    ⟨_, hall⟩ | ⟨w, l1, l2, hres, hdec, hw, _, hl1, hl2⟩
  · rcases hall i0 hi0mem with h3 | h3
    · exact absurd h3 (by simp [hi0skip])
    · exact absurd hi0c (not_lt.mpr h3)
  · refine ⟨w, l1, l2,
      selectLoop_succ_some thr maxS scores embs fuel selected remaining w hcond hres,
      hdec, hw, fun j hj hsk => ?_, hl1⟩
    rw [hdec] at hj
    rcases List.mem_append.mp hj with hj1 | hj2
    · exact le_of_lt (hl1 j hj1 hsk)
    · rcases List.mem_cons.mp hj2 with rfl | hj3
      · exact le_refl _
      · exact hl2 j hj3 hsk

/-- C5 counterexample: after selecting index 0, candidate 1 is non-skipped
(similarity 0) but its combined score is exactly `-1`, which does not beat
the `-1` initialization of `best_score`; the round therefore falls back to
the highest-relevance candidate and appends index 2 — a candidate that was
skipped as too similar — instead of the non-skipped candidate 1. -/
theorem C5_counterexample :
    select_diverse_sentences (4 / 5) [1, -1, 9 / 10]
      [[1, 0], [0, 1], [12 / 13, 5 / 13]] 2 = [0, 2] ∧
    roundSkip (4 / 5) [[1, 0], [0, 1], [12 / 13, 5 / 13]] [0] 1 = false ∧
    roundSkip (4 / 5) [[1, 0], [0, 1], [12 / 13, 5 / 13]] [0] 2 = true := by
  refine ⟨?_, ?_, ?_⟩
  · norm_num [select_diverse_sentences, argmaxIdx, argmaxAux, selectLoop_succ,
      selectLoop_zero, pickBest, maxByScore, maxByAux, roundSkip, roundCombined,
      maxSimTo, cosineSim, dot, getEmb, getQ, listMax, List.range_succ, List.erase_cons]
  · norm_num [roundSkip, maxSimTo, listMax, cosineSim, dot, getEmb]
  · norm_num [roundSkip, maxSimTo, listMax, cosineSim, dot, getEmb]

/-- Witness for `C5_round_selection` at a concrete round state. -/
theorem C5_round_selection_witness :
    ∃ w l1 l2,
      selectLoop (4 / 5) 2 [1, 0] [[(1 : ℚ)], [0]] (1 + 1) [0] [1] =
        selectLoop (4 / 5) 2 [1, 0] [[(1 : ℚ)], [0]] 1 ([0] ++ [w]) ([1].erase w) ∧
      [1] = l1 ++ w :: l2 ∧
      roundSkip (4 / 5) [[(1 : ℚ)], [0]] [0] w = false ∧
      (∀ j ∈ [1], roundSkip (4 / 5) [[(1 : ℚ)], [0]] [0] j = false →
        roundCombined [1, 0] [[(1 : ℚ)], [0]] [0] j ≤
          roundCombined [1, 0] [[(1 : ℚ)], [0]] [0] w) ∧
      (∀ j ∈ l1, roundSkip (4 / 5) [[(1 : ℚ)], [0]] [0] j = false →
        roundCombined [1, 0] [[(1 : ℚ)], [0]] [0] j <
          roundCombined [1, 0] [[(1 : ℚ)], [0]] [0] w) :=
  C5_round_selection (4 / 5) [1, 0] [[(1 : ℚ)], [0]] 2 1 [0] [1] (by norm_num)
    ⟨1, by simp, by norm_num [roundSkip, maxSimTo, listMax, cosineSim, dot, getEmb],
      by norm_num [roundCombined, maxSimTo, listMax, cosineSim, dot, getEmb, getQ]⟩

/-- The tuple key order used by the assembly sort is total. -/
theorem lexLe_total (a b : Nat × Nat) : lexLe a b = true ∨ lexLe b a = true := by
  rcases a with ⟨a1, a2⟩
  rcases b with ⟨b1, b2⟩
  simp only [lexLe, Bool.or_eq_true, Bool.and_eq_true, decide_eq_true_eq]
  omega

/-- The tuple key order used by the assembly sort is transitive. -/
theorem lexLe_trans {a b c : Nat × Nat} (h1 : lexLe a b = true)
    (h2 : lexLe b c = true) : lexLe a c = true := by
  rcases a with ⟨a1, a2⟩
  rcases b with ⟨b1, b2⟩
  rcases c with ⟨c1, c2⟩
  simp only [lexLe, Bool.or_eq_true, Bool.and_eq_true, decide_eq_true_eq] at *
  omega

/-- Membership in the insertion step. -/
theorem mem_insertByKey (cands : List SentCand) (x : Nat) :
    ∀ (l : List Nat) (y : Nat), y ∈ insertByKey cands x l ↔ y = x ∨ y ∈ l := by
  intro l
  induction l with
  | nil => intro y; simp [insertByKey]
  | cons z zs ih =>
    intro y
    rw [insertByKey]
    split
    · simp [List.mem_cons]
    · simp only [List.mem_cons, ih]
      tauto

/-- The insertion step is a permutation. -/
theorem perm_insertByKey (cands : List SentCand) (x : Nat) :
    ∀ l : List Nat, (insertByKey cands x l).Perm (x :: l) := by
  intro l
  induction l with
  | nil => simp [insertByKey]
  | cons z zs ih =>
    rw [insertByKey]
    split
    · exact List.Perm.refl _
    · exact (ih.cons z).trans (List.Perm.swap x z zs)

/-- The assembly sort permutes the selected indices. -/
theorem sortByKey_perm (cands : List SentCand) :
    ∀ l : List Nat, (sortByKey cands l).Perm l := by
  intro l
  induction l with
  | nil => simp [sortByKey]
  | cons z zs ih =>
    rw [sortByKey]
    exact (perm_insertByKey cands z (sortByKey cands zs)).trans (ih.cons z)

/-- The insertion step preserves sortedness by the tuple key. -/
theorem pairwise_insertByKey (cands : List SentCand) (x : Nat) :
    ∀ l : List Nat,
      List.Pairwise (fun a b => lexLe (pairKey cands a) (pairKey cands b) = true) l →
      List.Pairwise (fun a b => lexLe (pairKey cands a) (pairKey cands b) = true)
        (insertByKey cands x l) := by
  intro l
  induction l with
  | nil => intro _; simp [insertByKey]
  | cons z zs ih =>
    intro hp
    obtain ⟨hz, hzs⟩ := List.pairwise_cons.mp hp
    rw [insertByKey]
    split
    · next hle =>
      refine List.pairwise_cons.mpr ⟨?_, hp⟩
      intro y hy
      rcases List.mem_cons.mp hy with rfl | hy2
      · exact hle
      · exact lexLe_trans hle (hz y hy2)
    · next hnle =>
      have hzx : lexLe (pairKey cands z) (pairKey cands x) = true :=
        (lexLe_total (pairKey cands x) (pairKey cands z)).resolve_left hnle
      refine List.pairwise_cons.mpr ⟨?_, ih hzs⟩
      intro y hy
      rcases (mem_insertByKey cands x zs y).mp hy with rfl | hy2
      · exact hzx
      · exact hz y hy2

/-- The assembly sort produces a key-sorted index list. -/
theorem sortByKey_pairwise (cands : List SentCand) :
    ∀ l : List Nat,
      List.Pairwise (fun a b => lexLe (pairKey cands a) (pairKey cands b) = true)
        (sortByKey cands l) := by
  intro l
  induction l with
  | nil => simp [sortByKey]
  | cons z zs ih =>
    rw [sortByKey]
    exact pairwise_insertByKey cands z (sortByKey cands zs) ih

/-- C8: on every call that reaches assembly (non-empty retrieved texts and a
non-empty candidate pool), the summary is the space-join of the selected
candidates' texts reordered ascending by `(chunk_idx, sent_idx)` — a
permutation of the selection-order indices, not selection order itself. -/
theorem C8_reading_order (defaultMax : Nat) (thr : ℚ)
    (embedText : List Char → List ℚ) (query : List Char)
    (retrieved : List (List Char)) (maxOver : Option Nat)
    (h1 : retrieved ≠ []) (h2 : buildCands retrieved ≠ []) :
    ∃ idxs : List Nat,
      idxs.Perm (summarizeSelected defaultMax thr embedText query retrieved maxOver) ∧
      List.Pairwise (fun a b =>
        lexLe (pairKey (buildCands retrieved) a)
          (pairKey (buildCands retrieved) b) = true) idxs ∧
      summarize defaultMax thr embedText query retrieved maxOver =
        joinSp (idxs.map fun i => ((buildCands retrieved).getD i default).text) := by
  have e1 : retrieved.isEmpty = false := List.isEmpty_eq_false.mpr h1
  have e2 : (buildCands retrieved).isEmpty = false := List.isEmpty_eq_false.mpr h2
  refine ⟨sortByKey (buildCands retrieved)
      (summarizeSelected defaultMax thr embedText query retrieved maxOver),
    sortByKey_perm _ _, sortByKey_pairwise _ _, ?_⟩
  simp only [summarize, summarizeSelected, e1, e2, Bool.false_eq_true, if_false]

/-- Witness for `C8_reading_order` on a concrete call. -/
theorem C8_reading_order_witness :
    ∃ idxs : List Nat,
      idxs.Perm (summarizeSelected 3 (4 / 5) (fun _ => [1]) (['q'])
        [(("This sentence is long enough to pass the filter.").toList)] none) ∧
      List.Pairwise (fun a b =>
        lexLe (pairKey (buildCands
            [(("This sentence is long enough to pass the filter.").toList)]) a)
          (pairKey (buildCands
            [(("This sentence is long enough to pass the filter.").toList)]) b) = true)
        idxs ∧
      summarize 3 (4 / 5) (fun _ => [1]) (['q'])
        [(("This sentence is long enough to pass the filter.").toList)] none =
        joinSp (idxs.map fun i =>
          ((buildCands [(("This sentence is long enough to pass the filter.").toList)]).getD
            i default).text) :=
  C8_reading_order 3 (4 / 5) (fun _ => [1]) (['q'])
    [(("This sentence is long enough to pass the filter.").toList)] none
    (by simp) (by decide)

/-- C10: when the retrieved list is non-empty but every extracted sentence
has stripped length at most 20 (the filter keeps only strictly longer
sentences), `summarize` returns the dedicated sentinel — distinct from the
empty-input sentinel — for every embedding provider (the provider is never
consulted), and without raising. -/
theorem C10_short_sentence_sentinel (defaultMax : Nat) (thr : ℚ)
    (embedText : List Char → List ℚ) (query : List Char)
    (retrieved : List (List Char)) (maxOver : Option Nat)
    (h1 : retrieved ≠ [])
    (h2 : ∀ t ∈ retrieved, ∀ s ∈ extract_sentences t, (strip s).length ≤ 20) :
    summarize defaultMax thr embedText query retrieved maxOver =
      ("No suitable sentences found for summarization.").toList := by
  have hcands : buildCands retrieved = [] := by
    rw [buildCands]
    rw [List.flatMap_eq_nil_iff]
    intro p hp
    rw [List.filterMap_eq_nil_iff]
    intro q hq
    have hsent : q.2 ∈ extract_sentences p.2 :=
      List.getElem?_mem (List.mem_enum_iff_getElem?.mp hq)
    have hmem : p.2 ∈ retrieved :=
      List.getElem?_mem (List.mem_enum_iff_getElem?.mp hp)
    have := h2 p.2 hmem q.2 hsent
    rw [if_neg (by omega)]
  have e1 : retrieved.isEmpty = false := List.isEmpty_eq_false.mpr h1
  simp [summarize, e1, hcands]

/-- Witness for `C10_short_sentence_sentinel`: one retrieved text whose
only sentence is 10 characters long. -/
theorem C10_short_sentence_sentinel_witness :
    summarize 3 (4 / 5) (fun _ => [1]) (['q']) [(("short one.").toList)] none =
      ("No suitable sentences found for summarization.").toList :=
  C10_short_sentence_sentinel 3 (4 / 5) (fun _ => [1]) (['q'])
    [(("short one.").toList)] none (by simp) (by decide)

/-- `' '.join` over a split concatenation. -/
theorem joinSp_append :
    ∀ (l1 l2 : List (List Char)), l1 ≠ [] → l2 ≠ [] →
      joinSp (l1 ++ l2) = joinSp l1 ++ ' ' :: joinSp l2 := by
  intro l1
  induction l1 with
  | nil => intro l2 h _; exact absurd rfl h
  | cons a l1' ih =>
    intro l2 _ h2
    cases l1' with
    | nil =>
      obtain ⟨b, l2', rfl⟩ := List.exists_cons_of_ne_nil h2
      rfl
    | cons b l1'' =>
      have hrec := ih l2 (by simp) h2
      simp only [List.cons_append] at hrec ⊢
      rw [joinSp, hrec, joinSp]
      simp [List.append_assoc]

/-- Dropping within the left part of a concatenation. -/
theorem drop_append_le {α : Type} (l1 l2 : List α) :
    ∀ n : Nat, n ≤ l1.length → (l1 ++ l2).drop n = l1.drop n ++ l2 := by
  induction l1 with
  | nil =>
    intro n h
    simp at h
    simp [h]
  | cons a l1' ih =>
    intro n h
    cases n with
    | zero => simp
    | succ m =>
      simp only [List.cons_append, List.drop_succ_cons]
      exact ih m (by simpa using h)

/-- A good carry has a non-empty re-split. -/
theorem resplit_ne_nil_of_goodCarry {c : List Char} (h : goodCarry c) :
    resplitFilter c ≠ [] := by
  intro he
  have h2 := h.2
  rw [he] at h2
  exact h.1 h2.symm

/-- Non-overlapping portions of the later chunks of an accumulation-loop
run: when every boundary carry is good, they reproduce the suffix of the
joined text past the back-referenced region. -/
theorem reconAux_chunkLoop (cs ov : Nat) (d : List Char) :
    ∀ (sents current : List (List Char)) (curLen idx : Nat) (start : Int)
      (prev : DocumentChunk),
      current ≠ [] →
      (∀ c ∈ chunkCarries cs ov sents current curLen, goodCarry c) →
      (prev.end_char - start).toNat ≤ (joinSp current).length →
      reconAux prev (chunkLoop cs ov d sents current curLen idx start)
        = (joinSp (current ++ sents)).drop (prev.end_char - start).toNat := by
  intro sents
  induction sents with
  | nil =>
    intro current curLen idx start prev hne _ hle
    rw [chunkLoop]
    rw [if_neg (by simpa using hne)]
    rw [reconAux, reconAux]
    simp [List.append_nil]
  | cons s rest ih =>
    intro current curLen idx start prev hne hcarr hle
    rw [chunkCarries] at hcarr
    rw [chunkLoop]
    by_cases hcond : (!current.isEmpty && decide (curLen + s.length > cs)) = true
    · rw [if_pos hcond] at hcarr ⊢
      have hovt : goodCarry (get_overlap_text ov current) :=
        hcarr _ (List.mem_cons_self _ _)
      have hrs : resplitFilter (get_overlap_text ov current) ≠ [] :=
        resplit_ne_nil_of_goodCarry hovt
      have hjoin_new : joinSp (resplitFilter (get_overlap_text ov current) ++ [s])
          = get_overlap_text ov current ++ ' ' :: s := by
        rw [joinSp_append _ _ hrs (by simp), hovt.2]
        rfl
      have harith : ((start + ((joinSp current).length : Int)) -
          (start + ((joinSp current).length : Int) -
            ((get_overlap_text ov current).length : Int))).toNat
          = (get_overlap_text ov current).length := by omega
      have hrec := ih (resplitFilter (get_overlap_text ov current) ++ [s])
        ((get_overlap_text ov current).length + (s.length + 1)) (idx + 1)
        (start + ((joinSp current).length : Int) -
          ((get_overlap_text ov current).length : Int))
        ⟨d, idx, joinSp current, start, start + ((joinSp current).length : Int)⟩
        (by simp)
        (fun c hc => hcarr c (List.mem_cons_of_mem _ hc))
        (by dsimp only; rw [harith, hjoin_new]; simp)
      rw [reconAux]
      dsimp only at hrec ⊢
      rw [hrec, harith]
      have hjoin_rest : joinSp ((resplitFilter (get_overlap_text ov current) ++ [s]) ++ rest)
          = get_overlap_text ov current ++ ' ' :: joinSp (s :: rest) := by
        rw [List.append_assoc, joinSp_append _ _ hrs (by simp), hovt.2]
        rfl
      rw [hjoin_rest, List.drop_left]
      rw [joinSp_append current (s :: rest) hne (by simp)]
      rw [drop_append_le _ _ _ hle]
    · rw [if_neg hcond] at hcarr ⊢
      have hrec := ih (current ++ [s]) (curLen + (s.length + 1)) idx start prev
        (by simp) hcarr
        (le_trans hle (by
          rw [joinSp_append current [s] hne (by simp)]
          simp))
      rw [hrec]
      simp [List.append_assoc]

/-- Reconstruction of a full accumulation-loop run with good carries:
the first chunk plus the later chunks' non-overlapping portions rebuild
the joined text of the buffer and all remaining sentences. -/
theorem reconstruct_chunkLoop (cs ov : Nat) (d : List Char) :
    ∀ (sents current : List (List Char)) (curLen idx : Nat) (start : Int),
      current ≠ [] →
      (∀ c ∈ chunkCarries cs ov sents current curLen, goodCarry c) →
      reconstruct (chunkLoop cs ov d sents current curLen idx start)
        = joinSp (current ++ sents) := by
  intro sents
  induction sents with
  | nil =>
    intro current curLen idx start hne _
    rw [chunkLoop, if_neg (by simpa using hne), reconstruct]
    dsimp only
    rw [reconAux]
    simp
  | cons s rest ih =>
    intro current curLen idx start hne hcarr
    rw [chunkCarries] at hcarr
    rw [chunkLoop]
    by_cases hcond : (!current.isEmpty && decide (curLen + s.length > cs)) = true
    · rw [if_pos hcond] at hcarr ⊢
      have hovt : goodCarry (get_overlap_text ov current) :=
        hcarr _ (List.mem_cons_self _ _)
      have hrs : resplitFilter (get_overlap_text ov current) ≠ [] :=
        resplit_ne_nil_of_goodCarry hovt
      have hjoin_new : joinSp (resplitFilter (get_overlap_text ov current) ++ [s])
          = get_overlap_text ov current ++ ' ' :: s := by
        rw [joinSp_append _ _ hrs (by simp), hovt.2]
        rfl
      have harith : ((start + ((joinSp current).length : Int)) -
          (start + ((joinSp current).length : Int) -
            ((get_overlap_text ov current).length : Int))).toNat
          = (get_overlap_text ov current).length := by omega
      have hrec := reconAux_chunkLoop cs ov d rest
        (resplitFilter (get_overlap_text ov current) ++ [s])
        ((get_overlap_text ov current).length + (s.length + 1)) (idx + 1)
        (start + ((joinSp current).length : Int) -
          ((get_overlap_text ov current).length : Int))
        ⟨d, idx, joinSp current, start, start + ((joinSp current).length : Int)⟩
        (by simp)
        (fun c hc => hcarr c (List.mem_cons_of_mem _ hc))
        (by dsimp only; rw [harith, hjoin_new]; simp)
      rw [reconstruct]
      dsimp only at hrec ⊢
      rw [hrec, harith]
      have hjoin_rest : joinSp ((resplitFilter (get_overlap_text ov current) ++ [s]) ++ rest)
          = get_overlap_text ov current ++ ' ' :: joinSp (s :: rest) := by
        rw [List.append_assoc, joinSp_append _ _ hrs (by simp), hovt.2]
        rfl
      rw [hjoin_rest, List.drop_left]
      rw [joinSp_append current (s :: rest) hne (by simp)]
    · rw [if_neg hcond] at hcarr ⊢
      rw [ih (current ++ [s]) (curLen + (s.length + 1)) idx start (by simp) hcarr]
      simp [List.append_assoc]

/-- Reconstruction of a full `chunk_text` run with good carries rebuilds
the space-join of the sentence list. -/
theorem reconstruct_chunk_text (cs ov : Nat) (d t : List Char)
    (ht : ¬ (strip t).isEmpty)
    (hcarr : ∀ c ∈ carriesOf cs ov t, goodCarry c) :
    ∃ cks, chunk_text cs ov d t = some cks ∧
      reconstruct cks = joinSp (sentencesOf (normalize_text t)) := by
  refine ⟨chunkLoop cs ov d (sentencesOf (normalize_text t)) [] 0 0 0, ?_, ?_⟩
  · rw [chunk_text, if_neg ht]
  · obtain ⟨s, rest, hs⟩ := List.exists_cons_of_ne_nil (sentencesOf_ne_nil (normalize_text t))
    rw [carriesOf, hs] at hcarr
    rw [chunkCarries] at hcarr
    rw [hs, chunkLoop]
    norm_num at hcarr ⊢
    rw [reconstruct_chunkLoop cs ov d rest [s] (s.length + 1) 0 0 (by simp) hcarr]
    rfl

/-- `' '.join` of a cons onto a non-empty list. -/
theorem joinSp_cons_ne (a : List Char) (L : List (List Char)) (h : L ≠ []) :
    joinSp (a :: L) = a ++ ' ' :: joinSp L := by
  obtain ⟨b, L', rfl⟩ := List.exists_cons_of_ne_nil h
  rfl

/-- The sentence splitter always returns at least one piece. -/
theorem splitAux_ne_nil :
    ∀ (rest rprev rcur : List Char), splitAux rprev rcur rest ≠ [] := by
  intro rest
  induction rest with
  | nil => intro rprev rcur; rw [splitAux]; simp
  | cons c rest' ih =>
    intro rprev rcur
    rw [splitAux]
    split
    · simp
    · exact ih _ _

/-- A split boundary is a whitespace character. -/
theorem isBoundary_space {rprev : List Char} {c : Char}
    (h : isBoundary rprev c = true) : isPySpace c = true := by
  simp only [isBoundary, Bool.and_eq_true] at h
  exact h.1.1.1

/-- Joining the split pieces with single spaces restores the text, provided
every whitespace character of the text is a plain space (true after
normalization). -/
theorem joinSp_splitAux :
    ∀ (rest rprev rcur : List Char),
      (∀ c ∈ rest, isPySpace c = true → c = ' ') →
      joinSp (splitAux rprev rcur rest) = rcur.reverse ++ rest := by
  intro rest
  induction rest with
  | nil =>
    intro rprev rcur _
    rw [splitAux]
    simp [joinSp]
  | cons c rest' ih =>
    intro rprev rcur hsp
    rw [splitAux]
    by_cases hb : isBoundary rprev c = true
    · rw [if_pos hb]
      rw [joinSp_cons_ne _ _ (splitAux_ne_nil _ _ _)]
      rw [ih (c :: rprev) [] (fun x hx h2 => hsp x (List.mem_cons_of_mem _ hx) h2)]
      have hc : c = ' ' := hsp c (List.mem_cons_self _ _) (isBoundary_space hb)
      simp [hc]
    · rw [if_neg hb]
      rw [ih (c :: rprev) (c :: rcur) (fun x hx h2 => hsp x (List.mem_cons_of_mem _ hx) h2)]
      simp

/-- A surviving head of `dropWhile` fails the predicate. -/
theorem head?_dropWhile_false {p : Char → Bool} :
    ∀ (l : List Char) (c : Char), (l.dropWhile p).head? = some c → p c = false := by
  intro l
  induction l with
  | nil => intro c h; simp [List.dropWhile] at h
  | cons a l' ih =>
    intro c h
    rw [List.dropWhile_cons] at h
    by_cases hpa : p a = true
    · rw [if_pos hpa] at h
      exact ih c h
    · rw [if_neg hpa] at h
      simp only [List.head?_cons, Option.some.injEq] at h
      rw [← h]
      simpa using hpa

/-- `rstrip` keeps a leading segment of its input. -/
theorem stripR_leading (m : List Char) : stripR m <+: m := by
  refine ⟨(m.reverse.takeWhile isPySpace).reverse, ?_⟩
  rw [stripR, ← List.reverse_append, List.takeWhile_append_dropWhile, List.reverse_reverse]

/-- A character of the stripped text is a character of the text. -/
theorem mem_strip {l : List Char} {c : Char} (h : c ∈ strip l) : c ∈ l := by
  rw [strip, stripR] at h
  rw [List.mem_reverse] at h
  have h2 : c ∈ (stripL l).reverse := List.Sublist.mem h (List.dropWhile_sublist _)
  rw [List.mem_reverse] at h2
  exact List.Sublist.mem h2 (List.dropWhile_sublist _)

/-- The head of a stripped text is not whitespace. -/
theorem head?_strip_false {l : List Char} {c : Char}
    (h : (strip l).head? = some c) : isPySpace c = false := by
  rw [strip] at h
  obtain ⟨k, hk⟩ := stripR_leading (stripL l)
  have hne : stripR (stripL l) ≠ [] := by
    intro he
    rw [he] at h
    simp at h
  obtain ⟨x, xs, hx⟩ := List.exists_cons_of_ne_nil hne
  rw [hx] at h
  simp only [List.head?_cons, Option.some.injEq] at h
  have hx2 : (stripL l).head? = some x := by
    rw [← hk, hx]
    rfl
  rw [h] at hx2
  exact head?_dropWhile_false l c hx2

/-- The last character of a stripped text is not whitespace. -/
theorem getLast?_strip_false {l : List Char} {c : Char}
    (h : (strip l).getLast? = some c) : isPySpace c = false := by
  rw [strip, stripR, List.getLast?_reverse] at h
  exact head?_dropWhile_false _ c h

/-- Sentence-ending punctuation is not whitespace. -/
theorem punct_not_space {c : Char} (h : isPunct c = true) : isPySpace c = false := by
  simp only [isPunct, Bool.or_eq_true, decide_eq_true_eq] at h
  rcases h with (rfl | rfl) | rfl <;> rfl

/-- Every piece produced by the sentence splitter on a normalized-shaped
text is non-empty and has non-whitespace first and last characters (so
`strip` leaves it unchanged and the empty filter keeps it). -/
theorem splitAux_pieces :
    ∀ (rest rprev rcur : List Char),
      (rcur ≠ [] ∨ rest ≠ []) →
      List.Chain' (fun a b => ¬(isPySpace a = true ∧ isPySpace b = true)) rest →
      (rcur = [] → ∀ c, rest.head? = some c → isPySpace c = false) →
      (∀ c, rest.getLast? = some c → isPySpace c = false) →
      (∀ c, rcur.getLast? = some c → isPySpace c = false) →
      (rest = [] → ∀ c, rcur.head? = some c → isPySpace c = false) →
      (rcur = [] → rprev = [] ∨ ∃ c, rprev.head? = some c ∧ isPySpace c = true) →
      (∀ c, rcur.head? = some c → rprev.head? = some c) →
      ∀ p ∈ splitAux rprev rcur rest,
        p ≠ [] ∧ (∀ c, p.head? = some c → isPySpace c = false) ∧
          (∀ c, p.getLast? = some c → isPySpace c = false) := by
  intro rest
  induction rest with
  | nil =>
    intro rprev rcur h0 _ _ _ h4 h5 _ _ p hp
    rw [splitAux] at hp
    simp only [List.mem_singleton] at hp
    subst hp
    have hrc : rcur ≠ [] := h0.resolve_right (fun h => h rfl)
    refine ⟨by simpa using hrc, ?_, ?_⟩
    · intro c hc
      rw [List.head?_reverse] at hc
      exact h4 c hc
    · intro c hc
      rw [List.getLast?_reverse] at hc
      exact h5 rfl c hc
  | cons c rest' ih =>
    intro rprev rcur h0 hch h2 h3 h4 h5 h6 h7
    rw [splitAux]
    by_cases hb : isBoundary rprev c = true
    · have hbsp : isPySpace c = true := isBoundary_space hb
      have hprev : ∃ p1 rp, rprev = p1 :: rp ∧ isPunct p1 = true := by
        have hb' := hb
        simp only [isBoundary, Bool.and_eq_true] at hb'
        have hm := hb'.1.1.2
        cases rprev with
        | nil => exact absurd hm (by simp)
        | cons p1 rp => exact ⟨p1, rp, rfl, hm⟩
      obtain ⟨p1, rp, hrprev, hp1⟩ := hprev
      have hrc : rcur ≠ [] := by
        intro he
        rcases h6 he with h | ⟨x, hx, hxsp⟩
        · rw [h] at hrprev
          exact absurd hrprev (by simp)
        · rw [hrprev] at hx
          simp only [List.head?_cons, Option.some.injEq] at hx
          rw [hx] at hp1
          rw [punct_not_space hp1] at hxsp
          exact absurd hxsp (by simp)
      have hrest' : rest' ≠ [] := by
        intro he
        subst he
        have := h3 c rfl
        rw [this] at hbsp
        exact absurd hbsp (by simp)
      rw [if_pos hb]
      intro p hp
      rcases List.mem_cons.mp hp with rfl | hp2
      · refine ⟨by simpa using hrc, ?_, ?_⟩
        · intro x hx
          rw [List.head?_reverse] at hx
          exact h4 x hx
        · intro x hx
          rw [List.getLast?_reverse] at hx
          have := h7 x hx
          rw [hrprev] at this
          simp only [List.head?_cons, Option.some.injEq] at this
          rw [this] at hp1
          exact punct_not_space hp1
      · refine ih (c :: rprev) [] (Or.inr hrest') hch.tail ?_ ?_ ?_ ?_ ?_ ?_ p hp2
        · intro _ x hx
          obtain ⟨y, ys, rfl⟩ := List.exists_cons_of_ne_nil hrest'
          simp only [List.head?_cons, Option.some.injEq] at hx
          have hR := (List.chain'_cons'.mp hch).1 y rfl
          rw [← hx]
          by_contra hxs
          exact hR ⟨hbsp, by simpa using hxs⟩
        · intro x hx
          obtain ⟨y, ys, rfl⟩ := List.exists_cons_of_ne_nil hrest'
          refine h3 x ?_
          rw [List.getLast?_cons_cons]
          exact hx
        · intro x hx
          simp at hx
        · intro he
          exact absurd he hrest'
        · intro _
          exact Or.inr ⟨c, rfl, hbsp⟩
        · intro x hx
          simp at hx
    · rw [if_neg hb]
      intro p hp
      refine ih (c :: rprev) (c :: rcur) (Or.inl (by simp)) hch.tail ?_ ?_ ?_ ?_ ?_ ?_ p hp
      · intro he
        exact absurd he (by simp)
      · intro x hx
        obtain ⟨y, ys, rfl⟩ := List.exists_cons_of_ne_nil
          (by rintro rfl; simp at hx : rest' ≠ [])
        refine h3 x ?_
        rw [List.getLast?_cons_cons]
        exact hx
      · intro x hx
        cases rcur with
        | nil =>
          simp only [List.getLast?_singleton, Option.some.injEq] at hx
          rw [← hx]
          exact h2 rfl c rfl
        | cons r rs =>
          rw [List.getLast?_cons_cons] at hx
          exact h4 x hx
      · intro he x hx
        subst he
        simp only [List.head?_cons, Option.some.injEq] at hx
        rw [← hx]
        exact h3 c rfl
      · intro he
        exact absurd he (by simp)
      · intro x hx
        simp only [List.head?_cons, Option.some.injEq] at hx
        rw [List.head?_cons, hx]

/-- Whitespace characters surviving `collapseWs` are plain spaces. -/
theorem collapseAux_space_eq :
    ∀ (l : List Char) (b : Bool) (c : Char),
      c ∈ collapseAux b l → isPySpace c = true → c = ' ' := by
  intro l
  induction l with
  | nil => intro b c hc _; simp [collapseAux] at hc
  | cons x rest ih =>
    intro b c hc hsp
    rw [collapseAux] at hc
    by_cases hx : isPySpace x = true
    · rw [if_pos hx] at hc
      cases b with
      | true => exact ih true c hc hsp
      | false =>
        rcases List.mem_cons.mp hc with rfl | hc2
        · rfl
        · exact ih true c hc2 hsp
    · rw [if_neg hx] at hc
      rcases List.mem_cons.mp hc with rfl | hc2
      · exact absurd hsp (by simpa using hx)
      · exact ih false c hc2 hsp

/-- Characters introduced by `insertSp` are plain spaces. -/
theorem mem_insertSp : ∀ (l : List Char) (c : Char), c ∈ insertSp l → c ∈ l ∨ c = ' '
  | [], c, h => by simp [insertSp] at h
  | [a], c, h => by
    rw [insertSp] at h
    exact Or.inl h
  | a :: b :: rest, c, h => by
    rw [insertSp] at h
    split at h
    · rcases List.mem_cons.mp h with rfl | h2
      · exact Or.inl (by simp)
      · rcases List.mem_cons.mp h2 with rfl | h3
        · exact Or.inr rfl
        · rcases List.mem_cons.mp h3 with rfl | h4
          · exact Or.inl (by simp)
          · rcases mem_insertSp rest c h4 with h5 | h5
            · exact Or.inl (by simp [h5])
            · exact Or.inr h5
    · rcases List.mem_cons.mp h with rfl | h2
      · exact Or.inl (by simp)
      · rcases mem_insertSp (b :: rest) c h2 with h5 | h5
        · exact Or.inl (by simp [List.mem_cons.mp h5])
        · exact Or.inr h5

/-- Every whitespace character of the normalized text is a plain space. -/
theorem normalize_space_eq (t : List Char) :
    ∀ c ∈ normalize_text t, isPySpace c = true → c = ' ' := by
  intro c hc hsp
  have h1 : c ∈ insertSp (collapseWs t) := mem_strip hc
  rcases mem_insertSp _ c h1 with h2 | rfl
  · exact collapseAux_space_eq t false c h2 hsp
  · rfl

/-- After skipping a whitespace run, the next emitted character is not
whitespace. -/
theorem collapseAux_true_head :
    ∀ (l : List Char) (c : Char),
      (collapseAux true l).head? = some c → isPySpace c = false := by
  intro l
  induction l with
  | nil => intro c h; simp [collapseAux] at h
  | cons x rest ih =>
    intro c h
    rw [collapseAux] at h
    by_cases hx : isPySpace x = true
    · rw [if_pos hx] at h
      exact ih c h
    · rw [if_neg hx] at h
      simp only [List.head?_cons, Option.some.injEq] at h
      rw [← h]
      simpa using hx

/-- `collapseWs` output has no two adjacent whitespace characters. -/
theorem collapseAux_chain :
    ∀ (l : List Char) (b : Bool),
      List.Chain' (fun a b => ¬(isPySpace a = true ∧ isPySpace b = true))
        (collapseAux b l) := by
  intro l
  induction l with
  | nil => intro b; simp [collapseAux]
  | cons x rest ih =>
    intro b
    rw [collapseAux]
    by_cases hx : isPySpace x = true
    · rw [if_pos hx]
      cases b with
      | true => exact ih true
      | false =>
        refine List.chain'_cons'.mpr ⟨?_, ih true⟩
        intro y hy hcontra
        rw [collapseAux_true_head rest y hy] at hcontra
        exact absurd hcontra.2 (by simp)
    · rw [if_neg hx]
      refine List.chain'_cons'.mpr ⟨?_, ih false⟩
      intro y _ hcontra
      exact hx hcontra.1

/-- `insertSp` does not change the first character. -/
theorem insertSp_head? : ∀ l : List Char, (insertSp l).head? = l.head?
  | [] => rfl
  | [_] => rfl
  | a :: b :: rest => by
    rw [insertSp]
    split <;> rfl

/-- An uppercase ASCII letter is not whitespace. -/
theorem upper_not_space {c : Char} (h : isUpperAZ c = true) : isPySpace c = false := by
  by_contra hsp
  have hsp' : isPySpace c = true := by simpa using hsp
  simp only [isPySpace, Bool.or_eq_true, decide_eq_true_eq] at hsp'
  rcases hsp' with ((((rfl | rfl) | rfl) | rfl) | rfl) | rfl <;> exact absurd h (by decide)

/-- `insertSp` preserves the no-double-whitespace property (the inserted
space sits between punctuation and an uppercase letter, both
non-whitespace). -/
theorem insertSp_chain :
    ∀ l : List Char,
      List.Chain' (fun a b => ¬(isPySpace a = true ∧ isPySpace b = true)) l →
      List.Chain' (fun a b => ¬(isPySpace a = true ∧ isPySpace b = true))
        (insertSp l)
  | [], _ => by simp [insertSp]
  | [a], h => by simpa [insertSp] using h
  | a :: b :: rest, h => by
    obtain ⟨hab, hbrest⟩ := List.chain'_cons'.mp h
    rw [insertSp]
    split
    · next hcond =>
      simp only [Bool.and_eq_true] at hcond
      have hua : isPySpace a = false := punct_not_space hcond.1
      have hub : isPySpace b = false := upper_not_space hcond.2
      refine List.chain'_cons'.mpr ⟨?_, ?_⟩
      · intro y _ hcontra
        rw [hua] at hcontra
        exact absurd hcontra.1 (by simp)
      refine List.chain'_cons'.mpr ⟨?_, ?_⟩
      · intro y hy hcontra
        simp only [List.head?_cons, Option.mem_def, Option.some.injEq] at hy
        subst hy
        rw [hub] at hcontra
        exact absurd hcontra.2 (by simp)
      refine List.chain'_cons'.mpr ⟨?_, ?_⟩
      · intro y _ hcontra
        rw [hub] at hcontra
        exact absurd hcontra.1 (by simp)
      · exact insertSp_chain rest (hbrest.tail)
    · refine List.chain'_cons'.mpr ⟨?_, insertSp_chain (b :: rest) hbrest⟩
      intro y hy
      rw [insertSp_head?] at hy
      simp only [List.head?_cons, Option.mem_def, Option.some.injEq] at hy
      subst hy
      exact hab b rfl

/-- `strip` keeps the no-double-whitespace property. -/
theorem strip_chain {R : Char → Char → Prop} (l : List Char)
    (h : List.Chain' R l) : List.Chain' R (strip l) := by
  rw [strip]
  exact List.Chain'.prefix (List.Chain'.suffix h (List.dropWhile_suffix _)) (stripR_leading _)

/-- `strip` is the identity on a text whose ends are not whitespace. -/
theorem strip_eq_self (p : List Char)
    (h1 : ∀ c, p.head? = some c → isPySpace c = false)
    (h2 : ∀ c, p.getLast? = some c → isPySpace c = false) : strip p = p := by
  have hL : stripL p = p := by
    cases p with
    | nil => rfl
    | cons a p' =>
      rw [stripL, List.dropWhile_cons, if_neg (by simp [h1 a rfl])]
  rw [strip, hL]
  cases hrev : p.reverse with
  | nil =>
    have : p = [] := by simpa using congrArg List.reverse hrev
    rw [this, stripR]
    rfl
  | cons a p' =>
    have ha : p.getLast? = some a := by
      rw [List.getLast?_eq_head?_reverse, hrev]
      rfl
    rw [stripR, hrev, List.dropWhile_cons, if_neg (by simp [h2 a ha])]
    rw [← hrev, List.reverse_reverse]

/-- The strip-and-filter comprehension is the identity on a piece list whose
pieces are non-empty and strip-invariant. -/
theorem stripNonempty_eq_self :
    ∀ l : List (List Char), (∀ p ∈ l, p ≠ [] ∧ strip p = p) →
      stripNonempty l = l := by
  intro l
  induction l with
  | nil => intro _; rfl
  | cons p l' ih =>
    intro h
    obtain ⟨hne, hst⟩ := h p (List.mem_cons_self _ _)
    have hpe : p.isEmpty = false := by simpa using hne
    rw [stripNonempty, List.filterMap_cons, hst, hpe]
    simp only [Bool.false_eq_true, if_false]
    have htail := ih (fun q hq => h q (List.mem_cons_of_mem _ hq))
    rw [stripNonempty] at htail
    rw [htail]

/-- Non-whitespace characters survive `dropWhile isPySpace`. -/
theorem mem_dropWhile_of_neg {p : Char → Bool} :
    ∀ (l : List Char) (c : Char), c ∈ l → p c = false → c ∈ l.dropWhile p := by
  intro l
  induction l with
  | nil => intro c hc _; simp at hc
  | cons a l' ih =>
    intro c hc hpc
    rw [List.dropWhile_cons]
    by_cases hpa : p a = true
    · rw [if_pos hpa]
      rcases List.mem_cons.mp hc with rfl | h2
      · rw [hpc] at hpa
        exact absurd hpa (by simp)
      · exact ih c h2 hpc
    · rw [if_neg hpa]
      exact hc

/-- Non-whitespace characters survive `strip`. -/
theorem mem_strip_of_neg (l : List Char) (c : Char) (hc : c ∈ l)
    (hp : isPySpace c = false) : c ∈ strip l := by
  rw [strip, stripR, List.mem_reverse]
  refine mem_dropWhile_of_neg _ c ?_ hp
  rw [List.mem_reverse]
  exact mem_dropWhile_of_neg l c hc hp

/-- Non-whitespace characters survive `collapseWs`. -/
theorem mem_collapse_of_neg :
    ∀ (l : List Char) (b : Bool) (c : Char), c ∈ l → isPySpace c = false →
      c ∈ collapseAux b l := by
  intro l
  induction l with
  | nil => intro b c hc _; simp at hc
  | cons x rest ih =>
    intro b c hc hp
    rw [collapseAux]
    by_cases hx : isPySpace x = true
    · rw [if_pos hx]
      rcases List.mem_cons.mp hc with rfl | h2
      · rw [hp] at hx
        exact absurd hx (by simp)
      · cases b with
        | true => exact ih true c h2 hp
        | false => exact List.mem_cons_of_mem _ (ih true c h2 hp)
    · rw [if_neg hx]
      rcases List.mem_cons.mp hc with rfl | h2
      · exact List.mem_cons_self _ _
      · exact List.mem_cons_of_mem _ (ih false c h2 hp)

/-- Every character of the input survives `insertSp`. -/
theorem mem_insertSp_of_mem :
    ∀ (l : List Char) (c : Char), c ∈ l → c ∈ insertSp l
  | [], c, h => absurd h (by simp)
  | [a], c, h => by rwa [insertSp]
  | a :: b :: rest, c, h => by
    rw [insertSp]
    split
    · rcases List.mem_cons.mp h with rfl | h2
      · simp
      · rcases List.mem_cons.mp h2 with rfl | h3
        · simp
        · simp [mem_insertSp_of_mem rest c h3]
    · rcases List.mem_cons.mp h with rfl | h2
      · exact List.mem_cons_self _ _
      · exact List.mem_cons_of_mem _ (mem_insertSp_of_mem (b :: rest) c h2)

/-- Normalization of an input with non-empty trimmed text is non-empty. -/
theorem normalize_ne_nil (t : List Char) (ht : ¬ (strip t).isEmpty) :
    normalize_text t ≠ [] := by
  have hne : strip t ≠ [] := by simpa using ht
  obtain ⟨c, cs, hcs⟩ := List.exists_cons_of_ne_nil hne
  have hhead : (strip t).head? = some c := by rw [hcs]; rfl
  have hcns : isPySpace c = false := head?_strip_false hhead
  have hct : c ∈ t := mem_strip (by rw [hcs]; exact List.mem_cons_self _ _)
  have h2 : c ∈ insertSp (collapseWs t) :=
    mem_insertSp_of_mem _ c (mem_collapse_of_neg t false c hct hcns)
  have h3 : c ∈ normalize_text t := mem_strip_of_neg _ c h2 hcns
  intro he
  rw [he] at h3
  exact absurd h3 (by simp)

/-- On normalized text, the sentence pipeline of `chunk_text` (split, strip,
filter, fallback) joins back to the text itself with single spaces. -/
theorem joinSp_sentencesOf_normalize (t : List Char) (ht : ¬ (strip t).isEmpty) :
    joinSp (sentencesOf (normalize_text t)) = normalize_text t := by
  have hnn : normalize_text t ≠ [] := normalize_ne_nil t ht
  have hch : List.Chain' (fun a b => ¬(isPySpace a = true ∧ isPySpace b = true))
      (normalize_text t) := by
    rw [normalize_text]
    exact strip_chain _ (insertSp_chain _ (collapseAux_chain t false))
  have hpieces := splitAux_pieces (normalize_text t) [] [] (Or.inr hnn) hch
    (fun _ c hc => by rw [normalize_text] at hc; exact head?_strip_false hc)
    (fun c hc => by rw [normalize_text] at hc; exact getLast?_strip_false hc)
    (fun c hc => by simp at hc)
    (fun _ c hc => by simp at hc)
    (fun _ => Or.inl rfl)
    (fun c hc => by simp at hc)
  have hstrip : ∀ p ∈ sentSplit (normalize_text t), p ≠ [] ∧ strip p = p := by
    intro p hp
    rw [sentSplit] at hp
    exact ⟨(hpieces p hp).1, strip_eq_self p (hpieces p hp).2.1 (hpieces p hp).2.2⟩
  have hsn : stripNonempty (sentSplit (normalize_text t)) = sentSplit (normalize_text t) :=
    stripNonempty_eq_self _ hstrip
  have hne2 : ¬ (stripNonempty (sentSplit (normalize_text t))).isEmpty = true := by
    rw [hsn]
    simpa [sentSplit] using splitAux_ne_nil (normalize_text t) [] []
  rw [sentencesOf, if_neg hne2, hsn, sentSplit]
  rw [joinSp_splitAux (normalize_text t) [] []
    (fun c hc hsp => normalize_space_eq t c hc hsp)]
  rfl

/-- C1 (amended): for every 1000-character document with non-empty trimmed
text chunked at `chunk_size = 512, overlap = 128`, if every boundary carry
is non-empty and survives the `". "` re-split verbatim, then concatenating
the first chunk with the non-overlapping portion of each later chunk
reconstructs exactly the normalized input text. -/
theorem C1_roundtrip (d t : List Char) (h1000 : t.length = 1000)
    (ht : ¬ (strip t).isEmpty)
    (hcarr : ∀ c ∈ carriesOf 512 128 t, c ≠ [] ∧ joinSp (resplitFilter c) = c) :
    ∃ cks, chunk_text 512 128 d t = some cks ∧ reconstruct cks = normalize_text t := by
  obtain ⟨cks, hk1, hk2⟩ := reconstruct_chunk_text 512 128 d t ht hcarr
  exact ⟨cks, hk1, by rw [hk2]; exact joinSp_sentencesOf_normalize t ht⟩

set_option maxRecDepth 10000 in
/-- C1 counterexample: a 1000-character document of 50-character
'.'-terminated sentences (plus one 82-character final sentence).  Each
boundary carries two sentences, so the carried overlap text contains
`". "`; the re-split on the literal `". "` drops a period, the rebuilt
buffer is one character shorter than the tracked `current_length`, and the
concatenation of non-overlapping portions (998 characters) loses two
characters of the normalized 1000-character text. -/
theorem C1_counterexample :
    (joinSp (List.replicate 18 (List.replicate 49 'a' ++ ['.']) ++
      [List.replicate 81 'a' ++ ['.']])).length = 1000 ∧
    ¬ (reconstruct ((chunk_text 512 128 (['d'])
        (joinSp (List.replicate 18 (List.replicate 49 'a' ++ ['.']) ++
          [List.replicate 81 'a' ++ ['.']]))).getD [])
      = normalize_text (joinSp (List.replicate 18 (List.replicate 49 'a' ++ ['.']) ++
          [List.replicate 81 'a' ++ ['.']]))) := by
  decide

set_option maxRecDepth 10000 in
/-- Witness for `C1_roundtrip`: a 1000-character document of
'!'-terminated sentences (82 of 11 characters, one of 16); every carry is
non-empty and contains no `". "`, so the hypotheses hold and reconstruction
is exact. -/
theorem C1_roundtrip_witness :
    ∃ cks, chunk_text 512 128 (['d'])
        (joinSp (List.replicate 82 (List.replicate 10 'a' ++ ['!']) ++
          [List.replicate 15 'a' ++ ['!']])) = some cks ∧
      reconstruct cks = normalize_text
        (joinSp (List.replicate 82 (List.replicate 10 'a' ++ ['!']) ++
          [List.replicate 15 'a' ++ ['!']])) :=
  C1_roundtrip (['d']) _ (by decide) (by decide) (by decide)

end SpecProof
